import Mathlib

/-!
Verification development for `scripts/meetups_to_rss.py`.

The script's pure logic is shallowly embedded here:

* Python `datetime` values become `PyDateTime`: a civil (wall-clock) time in
  integer microseconds since the epoch together with an optional UTC offset
  (`tz`), also in microseconds.  Timezone objects are modelled by their fixed
  UTC offset; the instant of an aware datetime is `civil - tz`.
* The external libraries (`dateutil.parser.parse`, `strftime`) are modelled as
  oracle parameters bundled in `PyLibs`; `dateutil.parser.parse` may raise
  (`Except.error`) or return `None` (`.ok none`) or a datetime.
* The regular expressions of the script are implemented as specialized
  matchers over `List Char` with `re.search` semantics (leftmost match,
  greedy repetition over character classes — for these patterns greediness is
  forced, see the comments at each matcher).  Character classes `\s`, `\w`,
  `\d` and case folding are modelled over ASCII, which covers every literal
  the script matches against.
* `now_local()` is modelled by a single `base` parameter: the run is
  deterministic with one clock reading.
-/

/-! ### Character classes (ASCII model of Python `\s`, `\w`, `\d`, lowercasing) -/

def pyWsChar (c : Char) : Bool :=
  c = ' ' || c = '\t' || c = '\n' || c = '\r' || c = Char.ofNat 11 || c = Char.ofNat 12

def wordChar (c : Char) : Bool :=
  c.isAlphanum || c = '_'

def digitChar (c : Char) : Bool :=
  c.isDigit

def lowerC (c : Char) : Char :=
  c.toLower

/-! ### Python string helpers: `strip`, `re.sub("\s+", " ", ·)`, `" ".join(s.split())` -/

/-- Python `str.strip()`: drop leading and trailing whitespace. -/
def pyStrip (l : List Char) : List Char :=
  ((l.dropWhile pyWsChar).reverse.dropWhile pyWsChar).reverse

/-- Worker for `collapseWs`; the flag records whether the previous character
was whitespace (so a whitespace run emits a single space). -/
def collapseAux : Bool → List Char → List Char
  | _, [] => []
  | inWs, c :: r =>
    if pyWsChar c then
      if inWs then collapseAux true r else ' ' :: collapseAux true r
    else
      c :: collapseAux false r

/-- Python `re.sub(r"\s+", " ", t)`: replace every whitespace run by one space. -/
def collapseWs (l : List Char) : List Char :=
  collapseAux false l

/-- Python `str.split()`: split on whitespace runs, discarding empty pieces. -/
def pySplitAux : List Char → List Char → List (List Char)
  | [], cur => if cur.isEmpty then [] else [cur.reverse]
  | c :: r, cur =>
    if pyWsChar c then
      if cur.isEmpty then pySplitAux r [] else cur.reverse :: pySplitAux r []
    else
      pySplitAux r (c :: cur)

def pySplit (l : List Char) : List (List Char) :=
  pySplitAux l []

def joinSpace : List (List Char) → List Char
  | [] => []
  | [w] => w
  | w :: v :: rest => w ++ ' ' :: joinSpace (v :: rest)

/-- Python `" ".join(text.split())` (whitespace normalization in
`extract_attendees_from_text`). -/
def normJoin (l : List Char) : List Char :=
  joinSpace (pySplit l)

/-! ### Regex building blocks -/

/-- The word-boundary test `\b` before a word character: satisfied iff the
preceding character (if any) is not a word character. -/
def boundaryOkPrev : Option Char → Bool
  | none => true
  | some c => !wordChar c

/-- The word-boundary test `\b` after a word character: satisfied iff the next
character (if any) is not a word character. -/
def boundaryAfterB : List Char → Bool
  | [] => true
  | c :: _ => !wordChar c

/-- Case-insensitive literal match: `w` is a lowercase pattern; returns the
rest of the input if the input starts with `w` up to case. -/
def ciStrip : List Char → List Char → Option (List Char)
  | [], l => some l
  | _ :: _, [] => none
  | p :: ps, c :: cs => if lowerC c = p then ciStrip ps cs else none

def digitsToNat (l : List Char) : Nat :=
  l.foldl (fun acc c => 10 * acc + (c.toNat - 48)) 0

/-! ### The attendee regexes of `extract_attendees_from_text`

Pattern 1 is `\b(\d{1,6})\s*(attendees|going|rsvps|people|attending)\b` (with
`re.I`).  At a given start position the greedy `\d{1,6}` is forced: if the
maximal digit run is longer than 6 the alternation (which starts with a
letter) fails for every shorter prefix too, since the next character stays a
digit; likewise the greedy `\s*` is forced because the alternation cannot
start with whitespace.  So a position matches iff the preceding character is
not a word character, the maximal digit run there has length 1..6, and after
the following whitespace one of the five words occurs followed by `\b`. -/

def attendWords : List (List Char) :=
  [['a','t','t','e','n','d','e','e','s'], ['g','o','i','n','g'],
   ['r','s','v','p','s'], ['p','e','o','p','l','e'],
   ['a','t','t','e','n','d','i','n','g']]

def anyWordEnd (ws : List (List Char)) (l : List Char) : Bool :=
  ws.any fun w =>
    match ciStrip w l with
    | some rest => boundaryAfterB rest
    | none => false

def matchP1At (prev : Option Char) (l : List Char) : Option Nat :=
  if boundaryOkPrev prev then
    let ds := l.takeWhile digitChar
    let r1 := l.dropWhile digitChar
    if ds = [] || decide (6 < ds.length) then none
    else
      let r2 := r1.dropWhile pyWsChar
      if anyWordEnd attendWords r2 then some (digitsToNat ds) else none
  else none

def p1SearchAux : Option Char → List Char → Option Nat
  | prev, [] => matchP1At prev []
  | prev, c :: r =>
    match matchP1At prev (c :: r) with
    | some n => some n
    | none => p1SearchAux (some c) r

def p1Search (l : List Char) : Option Nat :=
  p1SearchAux none l

/-- Pattern 2 is `\battendees?\s*[:\-]?\s*(\d{1,6})\b` (with `re.I`).  The
optional `s`, the optional `[:\-]` and the greedy whitespace are all forced
(whitespace is neither `s`, `:`, `-` nor a digit; `s` is not `:`, `-`, a
space or a digit), and the greedy `\d{1,6}` with trailing `\b` succeeds iff
the maximal digit run has length 1..6 followed by a non-word character. -/
def matchP2At (prev : Option Char) (l : List Char) : Option Nat :=
  if boundaryOkPrev prev then
    match ciStrip ['a','t','t','e','n','d','e','e'] l with
    | none => none
    | some r1 =>
      let r2 := match r1 with
        | c :: rest => if lowerC c = 's' then rest else r1
        | [] => r1
      let r3 := r2.dropWhile pyWsChar
      let r4 := match r3 with
        | c :: rest => if c = ':' || c = '-' then rest else r3
        | [] => r3
      let r5 := r4.dropWhile pyWsChar
      let ds := r5.takeWhile digitChar
      let r6 := r5.dropWhile digitChar
      if ds = [] || decide (6 < ds.length) then none
      else if boundaryAfterB r6 then some (digitsToNat ds) else none
  else none

def p2SearchAux : Option Char → List Char → Option Nat
  | prev, [] => matchP2At prev []
  | prev, c :: r =>
    match matchP2At prev (c :: r) with
    | some n => some n
    | none => p2SearchAux (some c) r

def p2Search (l : List Char) : Option Nat :=
  p2SearchAux none l

/-- `extract_attendees_from_text` from the script: normalize whitespace, try
pattern 1 then pattern 2, first match wins (`int` on 1..6 digits never
fails). -/
def extract_attendees_from_text (text : String) : Option Nat :=
  if text = "" then none
  else
    let t := normJoin text.toList
    match p1Search t with
    | some n => some n
    | none => p2Search t

/-! ### The relative-phrase regex of `parse_start_dt`

`\bin\s+(\d{1,3})\s*(minute|minutes|hour|hours)\b` with `re.I`.  Greedy
`\s+`/`\d{1,3}`/`\s*` are forced as for the attendee patterns, and the
ordered alternation is deterministic: at most one alternative can match with
its trailing `\b` (an `s` after `minute`/`hour` is a word character, so the
shorter alternative fails its boundary exactly when the longer one applies). -/

/-- Matches `(minute|minutes|hour|hours)\b` case-insensitively; returns
`some isHour` on success (the script tests `"hour" in unit`). -/
def matchUnitEnd (l : List Char) : Option Bool :=
  match ciStrip ['m','i','n','u','t','e'] l with
  | some r =>
    match r with
    | [] => some false
    | c :: r2 =>
      if lowerC c = 's' then if boundaryAfterB r2 then some false else none
      else if !wordChar c then some false else none
  | none =>
    match ciStrip ['h','o','u','r'] l with
    | some r =>
      match r with
      | [] => some true
      | c :: r2 =>
        if lowerC c = 's' then if boundaryAfterB r2 then some true else none
        else if !wordChar c then some true else none
    | none => none

def matchRelAt (prev : Option Char) (l : List Char) : Option (Nat × Bool) :=
  if boundaryOkPrev prev then
    match ciStrip ['i','n'] l with
    | none => none
    | some r1 =>
      let ws1 := r1.takeWhile pyWsChar
      let r2 := r1.dropWhile pyWsChar
      if ws1 = [] then none
      else
        let ds := r2.takeWhile digitChar
        let r3 := r2.dropWhile digitChar
        if ds = [] || decide (3 < ds.length) then none
        else
          let r4 := r3.dropWhile pyWsChar
          match matchUnitEnd r4 with
          | some isHour => some (digitsToNat ds, isHour)
          | none => none
  else none

def relSearchAux : Option Char → List Char → Option (Nat × Bool)
  | prev, [] => matchRelAt prev []
  | prev, c :: r =>
    match matchRelAt prev (c :: r) with
    | some x => some x
    | none => relSearchAux (some c) r

def relSearch (l : List Char) : Option (Nat × Bool) :=
  relSearchAux none l

/-! ### The fallback regexes of `is_within_next_hour`

These run on the lowercased raw text: `\bin\s+\d+\s+minutes?\b` and
`\bin\s+1\s+hour\b` (no `re.I`; the text is lowercased first).  The first
matcher returns the length of the digit run it matched. -/

def matchFb1At (prev : Option Char) (l : List Char) : Option Nat :=
  if boundaryOkPrev prev then
    match ciStrip ['i','n'] l with
    | none => none
    | some r1 =>
      let ws1 := r1.takeWhile pyWsChar
      let r2 := r1.dropWhile pyWsChar
      if ws1 = [] then none
      else
        let ds := r2.takeWhile digitChar
        let r3 := r2.dropWhile digitChar
        if ds = [] then none
        else
          let ws2 := r3.takeWhile pyWsChar
          let r4 := r3.dropWhile pyWsChar
          if ws2 = [] then none
          else
            match ciStrip ['m','i','n','u','t','e'] r4 with
            | none => none
            | some r5 =>
              match r5 with
              | [] => some ds.length
              | c :: r6 =>
                if lowerC c = 's' then
                  if boundaryAfterB r6 then some ds.length else none
                else if !wordChar c then some ds.length else none
  else none

def fb1SearchAux : Option Char → List Char → Option Nat
  | prev, [] => matchFb1At prev []
  | prev, c :: r =>
    match matchFb1At prev (c :: r) with
    | some x => some x
    | none => fb1SearchAux (some c) r

def fb1Search (l : List Char) : Option Nat :=
  fb1SearchAux none l

def matchFb2At (prev : Option Char) (l : List Char) : Bool :=
  if boundaryOkPrev prev then
    match ciStrip ['i','n'] l with
    | none => false
    | some r1 =>
      let ws1 := r1.takeWhile pyWsChar
      let r2 := r1.dropWhile pyWsChar
      if ws1 = [] then false
      else
        match r2 with
        | c :: r3 =>
          if c = '1' then
            let ws2 := r3.takeWhile pyWsChar
            let r4 := r3.dropWhile pyWsChar
            if ws2 = [] then false
            else
              match ciStrip ['h','o','u','r'] r4 with
              | some r5 => boundaryAfterB r5
              | none => false
          else false
        | [] => false
  else false

def fb2SearchAux : Option Char → List Char → Bool
  | prev, [] => matchFb2At prev []
  | prev, c :: r => matchFb2At prev (c :: r) || fb2SearchAux (some c) r

def fb2Search (l : List Char) : Bool :=
  fb2SearchAux none l

/-! ### Substring occurrence (Python `in` on strings) -/

def subStartB : List Char → List Char → Bool
  | [], _ => true
  | _ :: _, [] => false
  | p :: ps, c :: cs => p = c && subStartB ps cs

def subB : List Char → List Char → Bool
  | p, [] => subStartB p []
  | p, c :: cs => subStartB p (c :: cs) || subB p cs

/-- `p` occurs as a contiguous substring of `l`. -/
def SubOf (p l : List Char) : Prop :=
  ∃ x y, l = x ++ p ++ y

/-! ### Python datetimes and the external date libraries -/

/-- Model of a Python `datetime`: civil (wall-clock) time in microseconds
since the epoch plus an optional fixed UTC offset in microseconds (`tzinfo`
is modelled by its offset; `none` is a naive datetime). -/
structure PyDateTime where
  civil : Int
  tz : Option Int
deriving DecidableEq, Repr

/-- The instant of a datetime (naive datetimes never get compared in the
script, every compared value is timezone-aware). -/
def inst (d : PyDateTime) : Int :=
  d.civil - d.tz.getD 0

/-- `d + timedelta(us microseconds)`: civil time shifts, the zone stays. -/
def addDelta (d : PyDateTime) (us : Int) : PyDateTime :=
  { civil := d.civil + us, tz := d.tz }

/-- `dt.astimezone(zone-with-offset tgt)`: instant-preserving conversion. -/
def astimezone (d : PyDateTime) (tgt : Int) : PyDateTime :=
  { civil := d.civil - d.tz.getD 0 + tgt, tz := some tgt }

/-- Lines 82-85 / 115-118 of the script: attach the local zone if naive,
convert into it otherwise. -/
def normalizeLocal (off : Int) (d : PyDateTime) : PyDateTime :=
  match d.tz with
  | none => { civil := d.civil, tz := some off }
  | some o => { civil := d.civil - o + off, tz := some off }

def minuteUs : Int := 60000000
def hourUs : Int := 3600000000
def dayUs : Int := 86400000000

def WINDOW_MINUTES : Nat := 60
def MAX_ITEMS : Nat := 50

def windowUs : Int := (WINDOW_MINUTES : Int) * minuteUs

/-- The instant of `datetime.max.replace(tzinfo=LOCAL_TZ)` (the sort key used
for events without a start): civil `9999-12-31T23:59:59.999999`. -/
def farCivilUs : Int := 253402300799999999

def instFar (off : Int) : Int := farCivilUs - off

/-- The external date libraries used by the script.  `dp` models
`dateutil.parser.parse` (it can raise, return `None`, or return a datetime);
`fmtYmd` models `strftime("%Y-%m-%d")`; `fmtRfc` models the RFC-2822
`strftime` of `rfc2822`. -/
structure PyLibs where
  dp : String → Except Unit (Option PyDateTime)
  fmtYmd : PyDateTime → String
  fmtRfc : PyDateTime → String

/-- Replace the exceptions of a parser by "no result". -/
def swallowDp (dp : String → Except Unit (Option PyDateTime)) :
    String → Except Unit (Option PyDateTime) :=
  fun s =>
    match dp s with
    | .ok o => .ok o
    | .error _ => .ok none

/-! ### `re.sub(r"\btoday\b", date, t, flags=re.I)` and the tomorrow variant -/

/-- Worker for `replaceWord`; each step consumes at least one input
character, so fuel equal to the input length gives the exact `re.sub`
behaviour. -/
def replaceWordAux (w rep : List Char) : Nat → Option Char → List Char → List Char
  | 0, _, l => l
  | _ + 1, _, [] => []
  | fuel + 1, prev, c :: r =>
    if boundaryOkPrev prev then
      match ciStrip w (c :: r) with
      | some rest =>
        if boundaryAfterB rest then
          rep ++ replaceWordAux w rep fuel (some (w.getLastD ' ')) rest
        else c :: replaceWordAux w rep fuel (some c) r
      | none => c :: replaceWordAux w rep fuel (some c) r
    else c :: replaceWordAux w rep fuel (some c) r

/-- `re.sub` of a `\b<word>\b` pattern (case-insensitive), replacing every
non-overlapping occurrence left to right. -/
def replaceWord (w rep : List Char) (l : List Char) : List Char :=
  replaceWordAux w rep l.length none l

/-- `re.search` of a `\b<word>\b` pattern (case-insensitive). -/
def wordFoundAux (w : List Char) : Option Char → List Char → Bool
  | _, [] => false
  | prev, c :: r =>
    (boundaryOkPrev prev &&
      (match ciStrip w (c :: r) with
       | some rest => boundaryAfterB rest
       | none => false)) ||
    wordFoundAux w (some c) r

def wordFound (w : List Char) (l : List Char) : Bool :=
  wordFoundAux w none l

def todayW : List Char := ['t','o','d','a','y']
def tomorrowW : List Char := ['t','o','m','o','r','r','o','w']

/-! ### `parse_start_dt` -/

/-- `parse_start_dt(dt_attr, when_text)` from the script, with the external
libraries `L`, the local zone offset `off` and the clock reading `base`
(`now_local()`) made explicit. -/
def parse_start_dt (L : PyLibs) (off : Int) (base : PyDateTime)
    (dt_attr : String) (when_text : String) : Option PyDateTime :=
  let attrRes : Option PyDateTime :=
    if dt_attr = "" then none
    else
      match L.dp dt_attr with
      | .error _ => none
      | .ok none => none
      | .ok (some d) => some (normalizeLocal off d)
  match attrRes with
  | some d => some d
  | none =>
    let t := pyStrip when_text.toList
    if t = [] then none
    else
      let tClean := collapseWs t
      match relSearch tClean with
      | some (n, isHour) =>
        some (addDelta base ((if isHour then hourUs else minuteUs) * (n : Int)))
      | none =>
        let t2 :=
          if wordFound todayW tClean then
            replaceWord todayW (L.fmtYmd base).toList tClean
          else if wordFound tomorrowW tClean then
            replaceWord tomorrowW (L.fmtYmd (addDelta base dayUs)).toList tClean
          else tClean
        match L.dp (String.mk t2) with
        | .error _ => none
        | .ok none => none
        | .ok (some d) => some (normalizeLocal off d)

/-! ### `is_within_next_hour` -/

def startingSoonW : List Char :=
  ['s','t','a','r','t','i','n','g',' ','s','o','o','n']

/-- `is_within_next_hour(start_dt, when_text)`, with `now_local()` modelled by
`now`. -/
def is_within_next_hour (now : PyDateTime) (start_dt : Option PyDateTime)
    (when_text : String) : Bool :=
  match start_dt with
  | some d => decide (inst now ≤ inst d) && decide (inst d ≤ inst now + windowUs)
  | none =>
    let t := when_text.toList.map lowerC
    if subB startingSoonW t then true
    else if (fb1Search t).isSome then true
    else if fb2Search t then true
    else false

/-! ### The raw cards and resolved items of `main` -/

/-- Raw card shape produced by the in-page extraction. -/
structure RawCard where
  title : String
  url : String
  whenText : String
  dtAttr : String
  cardText : String
deriving DecidableEq, Repr

/-- Resolved event dictionary appended to `items` in `main`. -/
structure Item where
  title : String
  url : String
  when_text : String
  attendees : Option Nat
  start_dt : Option PyDateTime
  start_dt_utc : Option String
deriving DecidableEq, Repr

/-- `rfc2822(dt)` from the script: attach UTC if naive, then `strftime`
(modelled by the library oracle). -/
def rfc2822M (fmtRfc : PyDateTime → String) (d : PyDateTime) : String :=
  fmtRfc (match d.tz with
          | none => { civil := d.civil, tz := some 0 }
          | some _ => d)

def pyStripS (s : String) : String :=
  String.mk (pyStrip s.toList)

/-- One iteration of the conversion/filter loop of `main` (lines 280-305):
returns the item dictionary when the card is kept. -/
def convertCard (L : PyLibs) (off : Int) (base : PyDateTime) (r : RawCard) :
    Option Item :=
  let title := pyStripS r.title
  let url := pyStripS r.url
  let when_text := pyStripS r.whenText
  let dt_attr := pyStripS r.dtAttr
  let card_text := r.cardText
  let attendees := extract_attendees_from_text card_text
  let start_dt := parse_start_dt L off base dt_attr when_text
  if is_within_next_hour base start_dt when_text then
    some { title := title, url := url, when_text := when_text,
           attendees := attendees, start_dt := start_dt,
           start_dt_utc :=
             start_dt.map (fun d => rfc2822M L.fmtRfc (astimezone d 0)) }
  else none

/-- Sort key of `main` line 309: the start datetime, or
`datetime.max.replace(tzinfo=LOCAL_TZ)` when unresolved; aware datetimes
compare by instant. -/
def keyInst (off : Int) (it : Item) : Int :=
  match it.start_dt with
  | some d => inst d
  | none => instFar off

def sortLe (off : Int) (a b : Item) : Bool :=
  decide (keyInst off a ≤ keyInst off b)

/-- The kept items of one run, in extraction order (before sorting). -/
def qualifying (L : PyLibs) (off : Int) (base : PyDateTime)
    (raw : List RawCard) : List Item :=
  raw.filterMap (convertCard L off base)

/-- The output item list of one run: convert+filter, stable sort by start
(unknown last), cap at `MAX_ITEMS` (lines 307-312). -/
def pipeline (L : PyLibs) (off : Int) (base : PyDateTime)
    (raw : List RawCard) : List Item :=
  ((qualifying L off base raw).mergeSort (sortLe off)).take MAX_ITEMS

/-! ### `esc` and `build_rss` -/

/-- Per-character effect of Python `html.escape` (with quoting). -/
def escCharL (c : Char) : List Char :=
  if c = '&' then "&amp;".toList
  else if c = '<' then "&lt;".toList
  else if c = '>' then "&gt;".toList
  else if c = Char.ofNat 34 then "&quot;".toList
  else if c = Char.ofNat 39 then "&#x27;".toList
  else [c]

/-- `esc(s)` from the script: `html.escape((s or "").strip())`. -/
def escL (s : String) : List Char :=
  (pyStrip s.toList).flatMap escCharL

def esc (s : String) : String :=
  String.mk (escL s)

/-- Decimal digits of a natural number (Python `str(int)`), via fuel. -/
def natDecGo : Nat → Nat → List Char → List Char
  | 0, _, acc => acc
  | fuel + 1, n, acc =>
    if n = 0 then acc else natDecGo fuel (n / 10) (Char.ofNat (48 + n % 10) :: acc)

def natDec (n : Nat) : List Char :=
  if n = 0 then ['0'] else natDecGo n n []

/-- The `Time:` description fragment of an item (emitted when the escaped
`when_text` is non-empty). -/
def timePartL (it : Item) : List Char :=
  if escL it.when_text = [] then []
  else "<p><b>Time:</b> ".toList ++ escL it.when_text ++ "</p>".toList

/-- The `Attendees:` description fragment of an item. -/
def attPartL (it : Item) : List Char :=
  match it.attendees with
  | some a => "<p><b>Attendees:</b> ".toList ++ natDec a ++ "</p>".toList
  | none => []

/-- The `Open event` anchor fragment of an item. -/
def linkPartL (it : Item) : List Char :=
  "<p><a href=\"".toList ++ escL it.url ++ "\">Open event</a></p>".toList

/-- The CDATA-wrapped description of an item. -/
def descL (it : Item) : List Char :=
  "<![CDATA[".toList ++ (timePartL it ++ attPartL it ++ linkPartL it) ++ "]]>".toList

/-- The `pubdate` string of an item: the tag when a UTC string is available
(Python truthiness: `None` and `""` both give the empty placeholder). -/
def pubdateL (it : Item) : List Char :=
  match it.start_dt_utc with
  | some u =>
    if u = "" then [] else "<pubDate>".toList ++ u.toList ++ "</pubDate>".toList
  | none => []

/-- The `<item>` block rendered for one item in `build_rss` (lines 149-174),
as a character list. -/
def renderItemL (it : Item) : List Char :=
  "<item>\n  <title>".toList ++ escL it.title ++
  "</title>\n  <link>".toList ++ escL it.url ++
  "</link>\n  <guid isPermaLink=\"true\">".toList ++ escL it.url ++
  "</guid>\n  ".toList ++ pubdateL it ++
  "\n  <description>".toList ++ descL it ++
  "</description>\n</item>".toList

def FEED_TITLE : String := "Meetup (Online) â€” Starting Soon (Next Hour)"
def FEED_LINK : String :=
  "https://www.meetup.com/find/?dateRange=startingSoon&source=EVENTS&eventType=online"
def FEED_DESCRIPTION : String :=
  "Auto-generated RSS for Meetup online events starting within the next hour."

def joinNl : List (List Char) → List Char
  | [] => []
  | [x] => x
  | x :: y :: r => x ++ '\n' :: joinNl (y :: r)

/-- `build_rss(items)` from the script; `lastBuild` is the formatted current
UTC time (external clock+strftime). -/
def build_rssL (lastBuild : String) (items : List Item) : List Char :=
  let body := joinNl (items.map renderItemL)
  "<?xml version=\"1.0\" encoding=\"UTF-8\"?>\n<rss version=\"2.0\">\n<channel>\n  <title>".toList
    ++ escL FEED_TITLE ++
  "</title>\n  <link>".toList ++ escL FEED_LINK ++
  "</link>\n  <description>".toList ++ escL FEED_DESCRIPTION ++
  "</description>\n  <lastBuildDate>".toList ++ lastBuild.toList ++
  "</lastBuildDate>\n  <ttl>60</ttl>\n".toList ++ body ++
  "\n</channel>\n</rss>\n".toList

/-! ### Predicates and fixtures used by the verification statements -/

/-- The structured attribute gives no datetime: it is empty, or the parser
raises, or the parser returns `None`. -/
def attrUnusable (L : PyLibs) (a : String) : Prop :=
  a = "" ∨ L.dp a = .error () ∨ L.dp a = .ok none

/-- Ordering demanded by the sort invariant: resolved starts ascending, and
never an unresolved item before a resolved one. -/
def resolvedOrderB (a b : Item) : Bool :=
  match a.start_dt, b.start_dt with
  | some x, some y => decide (inst x ≤ inst y)
  | none, some _ => false
  | _, _ => true

/-- A resolved start lies strictly below the `datetime.max` sort sentinel. -/
def boundedStartB (off : Int) (it : Item) : Bool :=
  match it.start_dt with
  | some d => decide (inst d < instFar off)
  | none => true

/-- A date library whose parser always raises. -/
def failLibs : PyLibs :=
  { dp := fun _ => .error (), fmtYmd := fun _ => "1970-01-01", fmtRfc := fun _ => "" }

/-- A date library whose parser recognises exactly the attribute strings
used in the concrete witnesses. -/
def witLibs : PyLibs :=
  { dp := fun s =>
      if s = "2030-01-01T10:00" then .ok (some { civil := 100 * minuteUs, tz := some 0 })
      else if s = "naive" then .ok (some { civil := 100 * minuteUs, tz := none })
      else .error ()
    fmtYmd := fun _ => "1970-01-01"
    fmtRfc := fun _ => "Thu, 01 Jan 1970 00:00:00 +0000" }

def base0 : PyDateTime := { civil := 0, tz := some 0 }

/-- A card whose time never resolves but whose text passes the fallback. -/
def cardSoon : RawCard :=
  { title := "T", url := "u", whenText := "Starting Soon", dtAttr := "", cardText := "" }

/-- A card with a parseable structured attribute 100 minutes after `base0`
(outside the window, so it is filtered out). -/
def cardAttr : RawCard :=
  { title := "A", url := "a", whenText := "", dtAttr := "2030-01-01T10:00",
    cardText := "12 attendees" }

/-- A card resolving 30 minutes after `base0` (inside the window). -/
def cardRel : RawCard :=
  { title := "R", url := "r", whenText := "in 30 minutes", dtAttr := "",
    cardText := "" }

/-- A card resolving 10 minutes after `base0` (inside the window). -/
def cardRel10 : RawCard :=
  { title := "R10", url := "s", whenText := "in 10 minutes", dtAttr := "",
    cardText := "" }

def raw51 : List RawCard := List.replicate 51 cardSoon

/-- The character preceding the position right after `x` during a regex scan
that started with preceding context `prev`. -/
def prevAt (prev : Option Char) (x : List Char) : Option Char :=
  match x.getLast? with
  | some c => some c
  | none => prev

def ltpu : List Char := ['<', 'p', 'u']

def pubOpenT : List Char := "<pubDate".toList

/-- No occurrence of `"<pu"`, and the list ends neither in `<` nor in `<p`
(so appending cannot create an occurrence at the seam). -/
def SafeP (l : List Char) : Prop :=
  ¬ SubOf ltpu l ∧ l.reverse.take 1 ≠ ['<'] ∧ l.reverse.take 2 ≠ ['p', '<']

/-! ## Theorems -/

/-! ### Substring facts -/

theorem subStartB_iff {p l : List Char} :
    subStartB p l = true ↔ ∃ y, l = p ++ y := by
  induction p generalizing l with
  | nil => simp [subStartB]
  | cons a ps ih =>
    cases l with
    | nil => simp [subStartB]
    | cons c cs =>
      simp only [subStartB, Bool.and_eq_true, decide_eq_true_eq, ih,
        List.cons_append, List.cons.injEq]
      constructor
      · rintro ⟨h1, y, h2⟩
        exact ⟨y, h1.symm, h2⟩
      · rintro ⟨y, h1, h2⟩
        exact ⟨h1.symm, y, h2⟩

theorem subB_iff {p l : List Char} : subB p l = true ↔ SubOf p l := by
  induction l with
  | nil =>
    simp only [subB, subStartB_iff, SubOf]
    constructor
    · rintro ⟨y, h⟩
      exact ⟨[], y, by simpa using h⟩
    · rintro ⟨x, y, h⟩
      exact ⟨y, by
        have hx : x = [] := by
          cases x with
          | nil => rfl
          | cons a b => simp at h
        subst hx
        simpa using h⟩
  | cons c cs ih =>
    simp only [subB, Bool.or_eq_true, subStartB_iff, ih, SubOf]
    constructor
    · rintro (⟨y, h⟩ | ⟨x, y, h⟩)
      · exact ⟨[], y, by simpa using h⟩
      · exact ⟨c :: x, y, by simpa using h⟩
    · rintro ⟨x, y, h⟩
      cases x with
      | nil => exact Or.inl ⟨y, by simpa using h⟩
      | cons a b =>
        simp only [List.cons_append, List.cons.injEq] at h
        exact Or.inr ⟨b, y, h.2⟩

/-! ### Claim theorems for the window filter -/

/-- Claim C1: for every event with a resolved start timestamp the window
filter includes it iff `now <= start <= now + 60 minutes`, with both ends of
the interval closed: a start exactly at `now + 60 minutes` is included and a
start at `now + 61 minutes` is excluded. -/
theorem claim_C1 (now d : PyDateTime) (wt : String) :
    (is_within_next_hour now (some d) wt = true ↔
      inst now ≤ inst d ∧ inst d ≤ inst now + 60 * minuteUs) ∧
    is_within_next_hour now (some (addDelta now (60 * minuteUs))) wt = true ∧
    is_within_next_hour now (some (addDelta now (61 * minuteUs))) wt = false := by
  have hmain : ∀ d2 : PyDateTime, is_within_next_hour now (some d2) wt = true ↔
      inst now ≤ inst d2 ∧ inst d2 ≤ inst now + 60 * minuteUs := by
    intro d2
    simp [is_within_next_hour, windowUs, WINDOW_MINUTES]
  refine ⟨hmain d, ?_, ?_⟩
  · rw [hmain]
    simp only [inst, addDelta, minuteUs]
    constructor <;> omega
  · rw [← Bool.not_eq_true, hmain]
    simp only [inst, addDelta, minuteUs, not_and, not_le]
    intro _
    omega

/-- Claim C2: for every event whose start is unresolved, the window filter
includes it iff the raw text contains "starting soon" case-insensitively, or
matches the `in <digits> minute(s)` regex, or the literal `in 1 hour` regex;
unresolved "Starting Soon" is included, "Next week" and "in 2 hours" are
excluded. -/
theorem claim_C2 (now : PyDateTime) (wt : String) :
    (is_within_next_hour now none wt = true ↔
      (SubOf startingSoonW (wt.toList.map lowerC) ∨
       (fb1Search (wt.toList.map lowerC)).isSome = true ∨
       fb2Search (wt.toList.map lowerC) = true)) ∧
    is_within_next_hour now none "Starting Soon" = true ∧
    is_within_next_hour now none "Next week" = false ∧
    is_within_next_hour now none "in 2 hours" = false := by
  refine ⟨?_, by rfl, by rfl, by rfl⟩
  rw [← subB_iff]
  simp only [is_within_next_hour]
  split
  · simp_all
  · split
    · simp_all
    · split <;> simp_all

/-! ### Claim theorem for the attendee extractor -/

/-- Claim C7: the attendee extractor returns an optional natural number, by
trying the `<digits> (attendees|going|rsvps|people|attending)` pattern first
and the `attendees[:-]? <digits>` pattern second, first match winning;
"42 attendees" gives 42, "Attendees: 7" gives 7, text without a count gives
no value (no error is propagated). -/
theorem claim_C7 :
    (∀ t : String, extract_attendees_from_text t =
      match p1Search (normJoin t.toList) with
      | some n => some n
      | none => p2Search (normJoin t.toList)) ∧
    extract_attendees_from_text "42 attendees" = some 42 ∧
    extract_attendees_from_text "Attendees: 7" = some 7 ∧
    extract_attendees_from_text "Next week online" = none := by
  refine ⟨?_, by decide, by decide, by decide⟩
  intro t
  by_cases h : t = ""
  · subst h
    decide
  · simp [extract_attendees_from_text, h]

/-! ### Claim theorems for the time resolver -/

/-- Claim C8: the time resolver never propagates an exception: replacing
every exception of the external parser by "no result" does not change the
resolver on any input, so a parse failure at any step just falls through to
the next step or to the unresolved outcome (and the Lean embedding is a
total function). -/
theorem claim_C8 (L : PyLibs) (off : Int) (base : PyDateTime) (a wt : String) :
    parse_start_dt L off base a wt =
      parse_start_dt { L with dp := swallowDp L.dp } off base a wt := by
  simp only [parse_start_dt, swallowDp]
  by_cases ha : a = ""
  · simp only [ha, if_true]
    cases h2 : L.dp (String.mk _) with
    | error e => rfl
    | ok o => cases o <;> rfl
  · simp only [ha, if_false]
    cases h1 : L.dp a with
    | error e =>
      simp only []
      cases h2 : L.dp (String.mk _) with
      | error e2 => rfl
      | ok o => cases o <;> rfl
    | ok o =>
      cases o with
      | none =>
        simp only []
        cases h2 : L.dp (String.mk _) with
        | error e2 => rfl
        | ok o2 => cases o2 <;> rfl
      | some d => rfl

/-- Claim C4: when the structured datetime string parses, the resolver
returns it normalized to the local zone (attaching the zone when naive,
converting when aware), and converting the result back to the source's own
zone reproduces the source's civil time. -/
theorem claim_C4 (L : PyLibs) (off : Int) (base : PyDateTime) (a wt : String)
    (d : PyDateTime) (ha : a ≠ "") (hp : L.dp a = .ok (some d)) :
    parse_start_dt L off base a wt = some (normalizeLocal off d) ∧
    (normalizeLocal off d).tz = some off ∧
    (∀ o, d.tz = some o →
      astimezone (normalizeLocal off d) o = { civil := d.civil, tz := some o }) ∧
    (d.tz = none →
      normalizeLocal off d = { civil := d.civil, tz := some off }) := by
  refine ⟨?_, ?_, ?_, ?_⟩
  · simp [parse_start_dt, ha, hp]
  · cases htz : d.tz <;> simp [normalizeLocal, htz]
  · intro o ho
    simp only [normalizeLocal, ho, astimezone, Option.getD_some]
    congr 1
    omega
  · intro h0
    simp [normalizeLocal, h0]

theorem claim_C4_witness :
    parse_start_dt witLibs 3 base0 "2030-01-01T10:00" "" =
      some (normalizeLocal 3 { civil := 100 * minuteUs, tz := some 0 }) :=
  (claim_C4 witLibs 3 base0 "2030-01-01T10:00" ""
      { civil := 100 * minuteUs, tz := some 0 }
      (by decide) (by rfl)).1


/-- Helper: with an unusable structured attribute, a relative-phrase match on
the cleaned text decides the resolver (shared by the C3 and C10 theorems). -/
theorem parse_start_dt_relBranch (L : PyLibs) (off : Int) (base : PyDateTime)
    (a wt : String) (n : Nat) (isHour : Bool)
    (hattr : attrUnusable L a)
    (hrel : relSearch (collapseWs (pyStrip wt.toList)) = some (n, isHour)) :
    parse_start_dt L off base a wt =
      some (addDelta base ((if isHour then hourUs else minuteUs) * (n : Int))) := by
  have ht : ¬ (pyStrip wt.toList = []) := by
    intro h0
    rw [h0] at hrel
    simp [collapseWs, collapseAux, relSearch, relSearchAux, matchRelAt, ciStrip,
      boundaryOkPrev] at hrel
  unfold parse_start_dt
  rcases hattr with ha | ha | ha
  · rw [if_pos ha, if_neg ht]
    simp only [hrel]
  · by_cases ha2 : a = ""
    · rw [if_pos ha2, if_neg ht]
      simp only [hrel]
    · rw [if_neg ha2, ha, if_neg ht]
      simp only [hrel]
  · by_cases ha2 : a = ""
    · rw [if_pos ha2, if_neg ht]
      simp only [hrel]
    · rw [if_neg ha2, ha, if_neg ht]
      simp only [hrel]

/-- Claim C3: when the structured attribute is absent or fails to parse and
the cleaned free text matches the relative `in <N> (minute(s)|hour(s))`
regex, the resolver returns `now + offset` — the relative branch runs before
the today/tomorrow substitution and the generic parse, so it wins for every
such text; "in 30 minutes" resolves to now + 30 minutes, "in 2 hours" to
now + 2 hours. -/
theorem claim_C3 :
    (∀ (L : PyLibs) (off : Int) (base : PyDateTime) (a wt : String)
       (n : Nat) (isHour : Bool),
      attrUnusable L a →
      relSearch (collapseWs (pyStrip wt.toList)) = some (n, isHour) →
      parse_start_dt L off base a wt =
        some (addDelta base ((if isHour then hourUs else minuteUs) * (n : Int)))) ∧
    (∀ (off : Int) (base : PyDateTime),
      parse_start_dt failLibs off base "" "in 30 minutes" =
        some (addDelta base (30 * minuteUs))) ∧
    (∀ (off : Int) (base : PyDateTime),
      parse_start_dt failLibs off base "" "in 2 hours" =
        some (addDelta base (2 * hourUs))) := by
  refine ⟨parse_start_dt_relBranch, ?_, ?_⟩
  · intro off base
    rw [parse_start_dt_relBranch failLibs off base "" "in 30 minutes" 30 false
      (Or.inr (Or.inl rfl)) (by rfl)]
    norm_num [minuteUs]
  · intro off base
    rw [parse_start_dt_relBranch failLibs off base "" "in 2 hours" 2 true
      (Or.inr (Or.inl rfl)) (by rfl)]
    norm_num [hourUs]

theorem claim_C3_witness :
    parse_start_dt failLibs 0 base0 "" "in 45 minutes" =
      some (addDelta base0 ((if false then hourUs else minuteUs) * (45 : Int))) :=
  claim_C3.1 failLibs 0 base0 "" "in 45 minutes" 45 false (Or.inr (Or.inl rfl)) (by rfl)

/-! ### Claim theorems for the output list of `main` -/

theorem sortLe_trans (off : Int) : ∀ a b c : Item,
    sortLe off a b = true → sortLe off b c = true → sortLe off a c = true := by
  intro a b c hab hbc
  simp only [sortLe, decide_eq_true_eq] at *
  omega

theorem sortLe_total (off : Int) : ∀ a b : Item,
    (sortLe off a b || sortLe off b a) = true := by
  intro a b
  simp only [sortLe, Bool.or_eq_true, decide_eq_true_eq]
  omega

/-- Claim C5: in the output item list of a run, every event with a resolved
start precedes every event without one, and the resolved events are ordered
ascending by start (the `datetime.max` sentinel used for unresolved items
exceeds every actually resolved start, which is the `boundedStartB`
hypothesis). -/
theorem claim_C5 (L : PyLibs) (off : Int) (base : PyDateTime) (raw : List RawCard)
    (hb : ∀ it ∈ qualifying L off base raw, boundedStartB off it = true) :
    (pipeline L off base raw).Pairwise (fun a b => resolvedOrderB a b = true) := by
  have hsorted := List.sorted_mergeSort (sortLe_trans off) (sortLe_total off)
    (qualifying L off base raw)
  have hsub : (pipeline L off base raw).Sublist
      ((qualifying L off base raw).mergeSort (sortLe off)) :=
    List.take_sublist _ _
  have hp : (pipeline L off base raw).Pairwise (fun a b => sortLe off a b = true) :=
    List.Pairwise.sublist hsub hsorted
  refine List.Pairwise.imp_of_mem ?_ hp
  intro a b ha2 hb2 hr
  have hmemB : b ∈ qualifying L off base raw := by
    have h1 : b ∈ (qualifying L off base raw).mergeSort (sortLe off) :=
      List.take_subset _ _ hb2
    exact (List.mergeSort_perm (qualifying L off base raw) (sortLe off)).mem_iff.mp h1
  have hbb := hb b hmemB
  simp only [sortLe, decide_eq_true_eq] at hr
  cases hsa : a.start_dt with
  | some x =>
    cases hsb : b.start_dt with
    | some y =>
      simp only [resolvedOrderB, hsa, hsb, decide_eq_true_eq]
      simp only [keyInst, hsa, hsb] at hr
      exact hr
    | none => simp [resolvedOrderB, hsa, hsb]
  | none =>
    cases hsb : b.start_dt with
    | some y =>
      simp only [boundedStartB, hsb, decide_eq_true_eq] at hbb
      simp only [keyInst, hsa, hsb] at hr
      omega
    | none => simp [resolvedOrderB, hsa, hsb]

theorem claim_C5_witness :
    (pipeline witLibs 0 base0 [cardSoon, cardRel, cardRel10]).Pairwise
      (fun a b => resolvedOrderB a b = true) :=
  claim_C5 witLibs 0 base0 [cardSoon, cardRel, cardRel10] (by decide)

/-- Claim C6: when more than `MAX_ITEMS = 50` events qualify, the output has
exactly 50 items, the cap being applied to the sorted list (the output is
the first 50 of the sorted qualifying events, and every kept item's sort key
is at most every dropped item's sort key — the 50 earliest). -/
theorem claim_C6 (L : PyLibs) (off : Int) (base : PyDateTime) (raw : List RawCard)
    (hlen : MAX_ITEMS < (qualifying L off base raw).length) :
    (pipeline L off base raw).length = MAX_ITEMS ∧
    pipeline L off base raw =
      ((qualifying L off base raw).mergeSort (sortLe off)).take MAX_ITEMS ∧
    (∀ a ∈ pipeline L off base raw,
      ∀ b ∈ ((qualifying L off base raw).mergeSort (sortLe off)).drop MAX_ITEMS,
        keyInst off a ≤ keyInst off b) := by
  refine ⟨?_, rfl, ?_⟩
  · rw [pipeline, List.length_take, List.length_mergeSort]
    omega
  · have hsorted := List.sorted_mergeSort (sortLe_trans off) (sortLe_total off)
      (qualifying L off base raw)
    have h2 : (((qualifying L off base raw).mergeSort (sortLe off)).take MAX_ITEMS ++
        ((qualifying L off base raw).mergeSort (sortLe off)).drop MAX_ITEMS).Pairwise
        (fun a b => sortLe off a b = true) := by
      rw [List.take_append_drop]
      exact hsorted
    have h3 := (List.pairwise_append.mp h2).2.2
    intro a hA b hB
    have h4 := h3 a hA b hB
    simpa [sortLe] using h4

theorem claim_C6_witness :
    (pipeline witLibs 0 base0 raw51).length = MAX_ITEMS :=
  (claim_C6 witLibs 0 base0 raw51 (by decide)).1

/-! ### Claim theorem for the feed builder -/

theorem subOf_mono_right {p l : List Char} (a : List Char) (h : SubOf p l) :
    SubOf p (a ++ l) := by
  obtain ⟨x, y, hx⟩ := h
  exact ⟨a ++ x, y, by rw [hx]; simp [List.append_assoc]⟩

theorem subOf_mono_left {p l : List Char} (b : List Char) (h : SubOf p l) :
    SubOf p (l ++ b) := by
  obtain ⟨x, y, hx⟩ := h
  exact ⟨x, y ++ b, by rw [hx]; simp [List.append_assoc]⟩

/-- An occurrence in an append is inside one part or spans the seam. -/
theorem subOf_append_cases {p a b : List Char} (h : SubOf p (a ++ b)) :
    SubOf p a ∨ SubOf p b ∨
      ∃ p1 p2, p = p1 ++ p2 ∧ p1 ≠ [] ∧ p2 ≠ [] ∧
        (∃ x, a = x ++ p1) ∧ (∃ y, b = p2 ++ y) := by
  obtain ⟨x, y, hx⟩ := h
  rw [List.append_assoc] at hx
  rcases List.append_eq_append_iff.mp hx.symm with ⟨v, hv1, hv2⟩ | ⟨v, hv1, hv2⟩
  · rcases List.append_eq_append_iff.mp hv2 with ⟨w, hw1, hw2⟩ | ⟨w, hw1, hw2⟩
    · refine Or.inl ⟨x, w, ?_⟩
      rw [hv1, hw1, List.append_assoc]
    · by_cases hv0 : v = []
      · subst hv0
        simp only [List.nil_append] at hw1
        refine Or.inr (Or.inl ⟨[], y, ?_⟩)
        rw [hw2, hw1]
        simp
      · by_cases hw0 : w = []
        · subst hw0
          simp only [List.append_nil] at hw1
          refine Or.inl ⟨x, [], ?_⟩
          rw [hv1, hw1]
          simp
        · exact Or.inr (Or.inr ⟨v, w, hw1, hv0, hw0, ⟨x, hv1⟩, ⟨y, hw2⟩⟩)
  · refine Or.inr (Or.inl ⟨v, y, ?_⟩)
    rw [hv2, List.append_assoc]

/-- `SafeP` is closed under append: neither part holds `"<pu"`, and the left
part ends in neither `<` nor `<p`, so no occurrence can span the seam. -/
theorem SafeP_append {a b : List Char} (ha : SafeP a) (hb : SafeP b) :
    SafeP (a ++ b) := by
  obtain ⟨ha1, ha2, ha3⟩ := ha
  obtain ⟨hb1, hb2, hb3⟩ := hb
  refine ⟨?_, ?_, ?_⟩
  · intro h
    rcases subOf_append_cases h with h | h | ⟨p1, p2, hp, h1, h2, ⟨x, hxa⟩, ⟨y, hyb⟩⟩
    · exact ha1 h
    · exact hb1 h
    · obtain ⟨c1, t1, rfl⟩ := List.exists_cons_of_ne_nil h1
      simp only [ltpu, List.cons_append, List.cons.injEq] at hp
      obtain ⟨hc1, hp⟩ := hp
      cases t1 with
      | nil =>
        apply ha2
        rw [hxa, List.reverse_append, hc1]
        rfl
      | cons c2 t2 =>
        simp only [List.cons_append, List.cons.injEq] at hp
        obtain ⟨hc2, hp⟩ := hp
        cases t2 with
        | nil =>
          apply ha3
          rw [hxa, List.reverse_append, hc1, hc2]
          rfl
        | cons c3 t3 =>
          simp only [List.cons_append, List.cons.injEq] at hp
          obtain ⟨hc3, hp⟩ := hp
          exact h2 (List.append_eq_nil.mp hp.symm).2
  · intro heq
    cases b with
    | nil =>
      rw [List.append_nil] at heq
      exact ha2 heq
    | cons c r =>
      rw [List.reverse_append, List.take_append_of_le_length (by simp)] at heq
      exact hb2 heq
  · intro heq
    cases b with
    | nil =>
      rw [List.append_nil] at heq
      exact ha3 heq
    | cons c r =>
      cases r with
      | nil =>
        rw [List.reverse_append] at heq
        simp only [List.reverse_cons, List.reverse_nil, List.nil_append,
          List.cons_append, List.take_succ_cons] at heq
        simp only [List.cons.injEq] at heq
        exact ha2 heq.2
      | cons c2 r2 =>
        rw [List.reverse_append, List.take_append_of_le_length (by simp)] at heq
        exact hb3 heq

theorem SafeP_nil : SafeP [] := by
  refine ⟨?_, by simp, by simp⟩
  rintro ⟨x, y, h⟩
  simp [ltpu] at h

theorem SafeP_of_no_lt {l : List Char} (h : ∀ c ∈ l, ¬ c = '<') : SafeP l := by
  refine ⟨?_, ?_, ?_⟩
  · rintro ⟨x, y, hx⟩
    have h2 : '<' ∈ l := by
      rw [hx]
      simp [ltpu]
    exact h _ h2 rfl
  · intro heq
    have h2 : '<' ∈ l.reverse.take 1 := by rw [heq]; simp
    exact h _ (List.mem_reverse.mp (List.take_subset _ _ h2)) rfl
  · intro heq
    have h2 : '<' ∈ l.reverse.take 2 := by rw [heq]; simp
    exact h _ (List.mem_reverse.mp (List.take_subset _ _ h2)) rfl

theorem SafeP_of_checks {l : List Char} (h1 : subB ltpu l = false)
    (h2 : l.reverse.take 1 ≠ ['<']) (h3 : l.reverse.take 2 ≠ ['p', '<']) :
    SafeP l := by
  refine ⟨fun hs => ?_, h2, h3⟩
  rw [← subB_iff, h1] at hs
  exact Bool.false_ne_true hs

theorem escCharL_no_lt (a : Char) : ∀ c ∈ escCharL a, ¬ c = '<' := by
  intro c hc
  unfold escCharL at hc
  split_ifs at hc with h1 h2 h3 h4 h5
  · fin_cases hc <;> decide
  · fin_cases hc <;> decide
  · fin_cases hc <;> decide
  · fin_cases hc <;> decide
  · fin_cases hc <;> decide
  · fin_cases hc
    exact h2

theorem escL_no_lt (s : String) : ∀ c ∈ escL s, ¬ c = '<' := by
  intro c hc
  rw [escL, List.mem_flatMap] at hc
  obtain ⟨a, _, hca⟩ := hc
  exact escCharL_no_lt a c hca

theorem natDecGo_mem {fuel n : Nat} {acc : List Char} {c : Char}
    (h : c ∈ natDecGo fuel n acc) :
    c ∈ acc ∨ ∃ k, k < 10 ∧ c = Char.ofNat (48 + k) := by
  induction fuel generalizing n acc with
  | zero => exact Or.inl h
  | succ f ih =>
    rw [natDecGo] at h
    by_cases hn : n = 0
    · rw [if_pos hn] at h
      exact Or.inl h
    · rw [if_neg hn] at h
      rcases ih h with hacc | hk
      · rcases List.mem_cons.mp hacc with hc0 | hc1
        · exact Or.inr ⟨n % 10, Nat.mod_lt _ (by norm_num), hc0⟩
        · exact Or.inl hc1
      · exact Or.inr hk

theorem natDec_no_lt (n : Nat) : ∀ c ∈ natDec n, ¬ c = '<' := by
  intro c hc
  unfold natDec at hc
  by_cases hn : n = 0
  · rw [if_pos hn] at hc
    fin_cases hc
    decide
  · rw [if_neg hn] at hc
    rcases natDecGo_mem hc with h | ⟨k, hk, rfl⟩
    · simp at h
    · intro heq
      interval_cases k <;> simp_all

theorem mem_dropWhile_of_not {c : Char} {l : List Char} {p : Char → Bool}
    (hc : p c = false) (h : c ∈ l) : c ∈ l.dropWhile p := by
  induction l with
  | nil => simp at h
  | cons a r ih =>
    rw [List.dropWhile_cons]
    split
    · rcases List.mem_cons.mp h with rfl | hr
      · simp_all
      · exact ih hr
    · exact h

theorem mem_pyStrip {c : Char} {l : List Char} (hc : pyWsChar c = false)
    (h : c ∈ l) : c ∈ pyStrip l := by
  rw [pyStrip, List.mem_reverse]
  exact mem_dropWhile_of_not hc (List.mem_reverse.mpr (mem_dropWhile_of_not hc h))

theorem amp_in_escL {s : String} (h : '&' ∈ s.toList) :
    SubOf "&amp;".toList (escL s) := by
  have h2 : '&' ∈ pyStrip s.toList := mem_pyStrip (by decide) h
  obtain ⟨s1, t1, hsplit⟩ := List.append_of_mem h2
  refine ⟨s1.flatMap escCharL, t1.flatMap escCharL, ?_⟩
  rw [escL, hsplit, List.flatMap_append, List.flatMap_cons]
  rw [show escCharL '&' = "&amp;".toList from rfl, List.append_assoc]

theorem SafeP_escL (s : String) : SafeP (escL s) :=
  SafeP_of_no_lt (escL_no_lt s)

theorem SafeP_timePartL (it : Item) : SafeP (timePartL it) := by
  rw [timePartL]
  split
  · exact SafeP_nil
  · exact SafeP_append (SafeP_append
      (SafeP_of_checks (by decide) (by decide) (by decide)) (SafeP_escL _))
      (SafeP_of_checks (by decide) (by decide) (by decide))

theorem SafeP_attPartL (it : Item) : SafeP (attPartL it) := by
  rw [attPartL]
  split
  · exact SafeP_append (SafeP_append
      (SafeP_of_checks (by decide) (by decide) (by decide))
      (SafeP_of_no_lt (natDec_no_lt _)))
      (SafeP_of_checks (by decide) (by decide) (by decide))
  · exact SafeP_nil

theorem SafeP_linkPartL (it : Item) : SafeP (linkPartL it) := by
  rw [linkPartL]
  exact SafeP_append (SafeP_append
    (SafeP_of_checks (by decide) (by decide) (by decide)) (SafeP_escL _))
    (SafeP_of_checks (by decide) (by decide) (by decide))

theorem SafeP_descL (it : Item) : SafeP (descL it) := by
  rw [descL]
  exact SafeP_append (SafeP_append
    (SafeP_of_checks (by decide) (by decide) (by decide))
    (SafeP_append (SafeP_append (SafeP_timePartL it) (SafeP_attPartL it))
      (SafeP_linkPartL it)))
    (SafeP_of_checks (by decide) (by decide) (by decide))

/-- When no UTC string is available, the whole rendered item is free of
`"<pu"` — in particular no `<pubDate` tag can occur anywhere in it. -/
theorem SafeP_renderItemL (it : Item) (hpub : it.start_dt_utc = none) :
    SafeP (renderItemL it) := by
  have hpl : pubdateL it = [] := by simp [pubdateL, hpub]
  rw [renderItemL, hpl]
  refine SafeP_append (SafeP_append (SafeP_append (SafeP_append (SafeP_append
    (SafeP_append (SafeP_append (SafeP_append (SafeP_append (SafeP_append
      (SafeP_of_checks (by decide) (by decide) (by decide))
      (SafeP_escL _))
      (SafeP_of_checks (by decide) (by decide) (by decide)))
      (SafeP_escL _))
      (SafeP_of_checks (by decide) (by decide) (by decide)))
      (SafeP_escL _))
      (SafeP_of_checks (by decide) (by decide) (by decide)))
      SafeP_nil)
      (SafeP_of_checks (by decide) (by decide) (by decide)))
      (SafeP_descL it))
      (SafeP_of_checks (by decide) (by decide) (by decide))

theorem pub_to_ltpu {l : List Char} (h : SubOf pubOpenT l) : SubOf ltpu l := by
  obtain ⟨x, y, hx⟩ := h
  refine ⟨x, "bDate".toList ++ y, ?_⟩
  rw [hx, show pubOpenT = ltpu ++ "bDate".toList from rfl]
  simp [List.append_assoc]

/-- Claim C9: in a rendered item the emitted title and link values are the
HTML-escaped field values (an ampersand in a title renders as `&amp;`), and
the `pubDate` element is emitted exactly when a resolved UTC string is
available — with none available, no `<pubDate` tag occurs anywhere in the
item. -/
theorem claim_C9 (it : Item) :
    SubOf ("<title>".toList ++ escL it.title ++ "</title>".toList) (renderItemL it) ∧
    SubOf ("<link>".toList ++ escL it.url ++ "</link>".toList) (renderItemL it) ∧
    ('&' ∈ it.title.toList → SubOf "&amp;".toList (renderItemL it)) ∧
    (it.start_dt_utc = none → ¬ SubOf pubOpenT (renderItemL it)) ∧
    (∀ u : String, it.start_dt_utc = some u → u ≠ "" →
      SubOf ("<pubDate>".toList ++ u.toList ++ "</pubDate>".toList) (renderItemL it)) := by
  refine ⟨?_, ?_, ?_, ?_, ?_⟩
  · refine ⟨"<item>\n  ".toList,
      "\n  <link>".toList ++ escL it.url ++
      "</link>\n  <guid isPermaLink=\"true\">".toList ++ escL it.url ++
      "</guid>\n  ".toList ++ pubdateL it ++
      "\n  <description>".toList ++ descL it ++
      "</description>\n</item>".toList, ?_⟩
    simp only [renderItemL, List.append_assoc]
    rfl
  · refine ⟨"<item>\n  <title>".toList ++ escL it.title ++ "</title>\n  ".toList,
      "\n  <guid isPermaLink=\"true\">".toList ++ escL it.url ++
      "</guid>\n  ".toList ++ pubdateL it ++
      "\n  <description>".toList ++ descL it ++
      "</description>\n</item>".toList, ?_⟩
    simp only [renderItemL, List.append_assoc]
    rfl
  · intro h
    have he : renderItemL it = "<item>\n  <title>".toList ++ (escL it.title ++
        ("</title>\n  <link>".toList ++ escL it.url ++
         "</link>\n  <guid isPermaLink=\"true\">".toList ++ escL it.url ++
         "</guid>\n  ".toList ++ pubdateL it ++
         "\n  <description>".toList ++ descL it ++
         "</description>\n</item>".toList)) := by
      simp only [renderItemL, List.append_assoc]
    rw [he]
    exact subOf_mono_right _ (subOf_mono_left _ (amp_in_escL h))
  · intro hpub hsub
    exact (SafeP_renderItemL it hpub).1 (pub_to_ltpu hsub)
  · intro u hu hne
    have hpl : pubdateL it = "<pubDate>".toList ++ u.toList ++ "</pubDate>".toList := by
      simp [pubdateL, hu, hne]
    refine ⟨"<item>\n  <title>".toList ++ escL it.title ++
      "</title>\n  <link>".toList ++ escL it.url ++
      "</link>\n  <guid isPermaLink=\"true\">".toList ++ escL it.url ++
      "</guid>\n  ".toList,
      "\n  <description>".toList ++ descL it ++
      "</description>\n</item>".toList, ?_⟩
    rw [← hpl]
    simp only [renderItemL, List.append_assoc]

theorem claim_C9_witness :
    SubOf "&amp;".toList (renderItemL
      { title := "A & B", url := "u", when_text := "", attendees := none,
        start_dt := none, start_dt_utc := none }) ∧
    ¬ SubOf pubOpenT (renderItemL
      { title := "A & B", url := "u", when_text := "", attendees := none,
        start_dt := none, start_dt_utc := none }) :=
  ⟨(claim_C9 _).2.2.1 (by decide), (claim_C9 _).2.2.2.1 rfl⟩

/-! ### Character arithmetic for the lowercasing used by the window fallback -/

theorem char_eq_iff {c d : Char} : c = d ↔ c.toNat = d.toNat :=
  ⟨fun h => h ▸ rfl, fun h => Char.ext (UInt32.ext h)⟩

theorem toNat_ofNat_valid {n : Nat} (h : n.isValidChar) : (Char.ofNat n).toNat = n := by
  rw [Char.ofNat, dif_pos h]
  rfl

theorem lowerC_toNat (c : Char) :
    (lowerC c).toNat = if c.toNat ≥ 65 ∧ c.toNat ≤ 90 then c.toNat + 32 else c.toNat := by
  rw [lowerC, Char.toLower]
  split_ifs with h1
  · exact toNat_ofNat_valid (Or.inl (by omega))
  · rfl

theorem pyWsChar_iff (c : Char) : pyWsChar c = true ↔
    (c.toNat = 32 ∨ c.toNat = 9 ∨ c.toNat = 10 ∨ c.toNat = 13 ∨
     c.toNat = 11 ∨ c.toNat = 12) := by
  have h1 : (' ' : Char).toNat = 32 := rfl
  have h2 : ('\t' : Char).toNat = 9 := rfl
  have h3 : ('\n' : Char).toNat = 10 := rfl
  have h4 : ('\r' : Char).toNat = 13 := rfl
  have h5 : (Char.ofNat 11).toNat = 11 := rfl
  have h6 : (Char.ofNat 12).toNat = 12 := rfl
  rw [pyWsChar]
  simp only [Bool.or_eq_true, decide_eq_true_eq, char_eq_iff, h1, h2, h3, h4, h5, h6]
  tauto

theorem digitChar_iff (c : Char) : digitChar c = true ↔
    48 ≤ c.toNat ∧ c.toNat ≤ 57 := by
  rw [digitChar, Char.isDigit]
  simp only [Bool.and_eq_true, decide_eq_true_eq]
  exact Iff.rfl

theorem wordChar_iff (c : Char) : wordChar c = true ↔
    ((65 ≤ c.toNat ∧ c.toNat ≤ 90) ∨ (97 ≤ c.toNat ∧ c.toNat ≤ 122) ∨
     (48 ≤ c.toNat ∧ c.toNat ≤ 57) ∨ c.toNat = 95) := by
  have h95 : ('_' : Char).toNat = 95 := rfl
  rw [wordChar, Char.isAlphanum, Char.isAlpha, Char.isUpper, Char.isLower, Char.isDigit]
  simp only [Bool.or_eq_true, Bool.and_eq_true, decide_eq_true_eq, char_eq_iff, h95]
  rw [or_assoc, or_assoc]
  exact Iff.rfl

theorem pyWsChar_lowerC (c : Char) : pyWsChar (lowerC c) = pyWsChar c := by
  rw [Bool.eq_iff_iff, pyWsChar_iff, pyWsChar_iff, lowerC_toNat]
  split_ifs with h <;> omega

theorem digitChar_lowerC (c : Char) : digitChar (lowerC c) = digitChar c := by
  rw [Bool.eq_iff_iff, digitChar_iff, digitChar_iff, lowerC_toNat]
  split_ifs with h <;> omega

theorem wordChar_lowerC (c : Char) : wordChar (lowerC c) = wordChar c := by
  rw [Bool.eq_iff_iff, wordChar_iff, wordChar_iff, lowerC_toNat]
  split_ifs with h <;> omega

theorem lowerC_idem (c : Char) : lowerC (lowerC c) = lowerC c := by
  rw [char_eq_iff, lowerC_toNat (lowerC c), lowerC_toNat c]
  split_ifs <;> omega

/-! ### Lowercasing commutes with the string helpers and the relative matcher -/

theorem takeWhile_pyWs_map (l : List Char) :
    (l.map lowerC).takeWhile pyWsChar = (l.takeWhile pyWsChar).map lowerC := by
  induction l with
  | nil => rfl
  | cons c r ih =>
    simp only [List.map_cons, List.takeWhile_cons, pyWsChar_lowerC]
    split <;> simp_all

theorem dropWhile_pyWs_map (l : List Char) :
    (l.map lowerC).dropWhile pyWsChar = (l.dropWhile pyWsChar).map lowerC := by
  induction l with
  | nil => rfl
  | cons c r ih =>
    simp only [List.map_cons, List.dropWhile_cons, pyWsChar_lowerC]
    split <;> simp_all

theorem takeWhile_digit_map (l : List Char) :
    (l.map lowerC).takeWhile digitChar = (l.takeWhile digitChar).map lowerC := by
  induction l with
  | nil => rfl
  | cons c r ih =>
    simp only [List.map_cons, List.takeWhile_cons, digitChar_lowerC]
    split <;> simp_all

theorem dropWhile_digit_map (l : List Char) :
    (l.map lowerC).dropWhile digitChar = (l.dropWhile digitChar).map lowerC := by
  induction l with
  | nil => rfl
  | cons c r ih =>
    simp only [List.map_cons, List.dropWhile_cons, digitChar_lowerC]
    split <;> simp_all

theorem pyStrip_map (l : List Char) :
    pyStrip (l.map lowerC) = (pyStrip l).map lowerC := by
  rw [pyStrip, pyStrip, dropWhile_pyWs_map, ← List.map_reverse, dropWhile_pyWs_map,
    ← List.map_reverse]

theorem collapseAux_map (f : Bool) (l : List Char) :
    collapseAux f (l.map lowerC) = (collapseAux f l).map lowerC := by
  induction l generalizing f with
  | nil => rfl
  | cons c r ih =>
    simp only [List.map_cons, collapseAux, pyWsChar_lowerC]
    split
    · split <;> simp_all [show lowerC ' ' = ' ' from rfl]
    · simp_all

theorem collapseWs_pyStrip_map (l : List Char) :
    collapseWs (pyStrip (l.map lowerC)) = (collapseWs (pyStrip l)).map lowerC := by
  rw [pyStrip_map, collapseWs, collapseAux_map]
  rfl

theorem ciStrip_map (w l : List Char) :
    ciStrip w (l.map lowerC) = (ciStrip w l).map (List.map lowerC) := by
  induction w generalizing l with
  | nil => rfl
  | cons p ps ih =>
    cases l with
    | nil => rfl
    | cons c cs =>
      simp only [List.map_cons, ciStrip, lowerC_idem]
      split <;> simp_all

theorem boundaryAfterB_map (l : List Char) :
    boundaryAfterB (l.map lowerC) = boundaryAfterB l := by
  cases l <;> simp [boundaryAfterB, wordChar_lowerC]

theorem boundaryOkPrev_map (p : Option Char) :
    boundaryOkPrev (p.map lowerC) = boundaryOkPrev p := by
  cases p <;> simp [boundaryOkPrev, wordChar_lowerC]

theorem lowerC_of_digit {c : Char} (h : digitChar c = true) : lowerC c = c := by
  rw [digitChar_iff] at h
  rw [char_eq_iff, lowerC_toNat, if_neg (by omega)]

theorem map_lowerC_digits {l : List Char} (h : ∀ c ∈ l, digitChar c = true) :
    l.map lowerC = l := by
  induction l with
  | nil => rfl
  | cons c r ih =>
    rw [List.map_cons, lowerC_of_digit (h c (by simp)), ih (fun d hd => h d (by simp [hd]))]

theorem matchUnitEnd_map (l : List Char) :
    matchUnitEnd (l.map lowerC) = matchUnitEnd l := by
  rw [matchUnitEnd, matchUnitEnd, ciStrip_map, ciStrip_map]
  cases h1 : ciStrip ['m','i','n','u','t','e'] l with
  | some r =>
    cases r with
    | nil => rfl
    | cons c r2 =>
      simp only [Option.map_some', List.map_cons, lowerC_idem, boundaryAfterB_map,
        wordChar_lowerC]
  | none =>
    cases h2 : ciStrip ['h','o','u','r'] l with
    | some r =>
      cases r with
      | nil => rfl
      | cons c r2 =>
        simp only [Option.map_some', Option.map_none', List.map_cons, lowerC_idem,
          boundaryAfterB_map, wordChar_lowerC]
    | none => rfl

theorem matchRelAt_map (prev : Option Char) (l : List Char) :
    matchRelAt (prev.map lowerC) (l.map lowerC) = matchRelAt prev l := by
  rw [matchRelAt, matchRelAt, boundaryOkPrev_map]
  split
  · rw [ciStrip_map]
    cases h : ciStrip ['i','n'] l with
    | none => rfl
    | some r1 =>
      simp only [Option.map_some', takeWhile_pyWs_map, dropWhile_pyWs_map,
        takeWhile_digit_map, dropWhile_digit_map, List.map_eq_nil_iff, List.length_map,
        matchUnitEnd_map]
      rw [map_lowerC_digits (fun c hc => List.mem_takeWhile_imp hc)]
  · rfl

theorem relSearchAux_map (prev : Option Char) (l : List Char) :
    relSearchAux (prev.map lowerC) (l.map lowerC) = relSearchAux prev l := by
  induction l generalizing prev with
  | nil =>
    show matchRelAt (prev.map lowerC) ([].map lowerC) = matchRelAt prev []
    rw [matchRelAt_map]
  | cons c r ih =>
    rw [List.map_cons, relSearchAux, relSearchAux]
    rw [show (lowerC c :: r.map lowerC) = (c :: r).map lowerC from rfl, matchRelAt_map]
    cases matchRelAt prev (c :: r) with
    | some v => rfl
    | none =>
      rw [show (some (lowerC c)) = (some c).map lowerC from rfl, ih]

theorem relSearch_lower (l : List Char) :
    relSearch (l.map lowerC) = relSearch l := by
  rw [relSearch, relSearch]
  exact relSearchAux_map none l

/-! ### Scan-position lemmas for `re.search` -/

theorem prevAt_cons (p : Option Char) (c : Char) (xs : List Char) :
    prevAt p (c :: xs) = prevAt (some c) xs := by
  cases xs with
  | nil => rfl
  | cons d ds =>
    rw [prevAt, prevAt, List.getLast?_cons_cons]
    cases hls : (d :: ds).getLast? with
    | some e => rfl
    | none => simp at hls

theorem searchOfAt_rel (x : List Char) : ∀ (prev : Option Char) (y : List Char)
    (v : Nat × Bool), matchRelAt (prevAt prev x) y = some v →
    (relSearchAux prev (x ++ y)).isSome = true := by
  induction x with
  | nil =>
    intro prev y v h
    cases y with
    | nil => simp [prevAt, matchRelAt, ciStrip] at h
    | cons c r =>
      rw [List.nil_append]
      show (match matchRelAt prev (c :: r) with
        | some v2 => some v2
        | none => relSearchAux (some c) r).isSome = true
      rw [show prevAt prev [] = prev from rfl] at h
      rw [h]
      rfl
  | cons x0 xs ih =>
    intro prev y v h
    rw [List.cons_append]
    show (match matchRelAt prev (x0 :: (xs ++ y)) with
      | some v2 => some v2
      | none => relSearchAux (some x0) (xs ++ y)).isSome = true
    cases hm : matchRelAt prev (x0 :: (xs ++ y)) with
    | some w => rfl
    | none =>
      rw [prevAt_cons] at h
      exact ih (some x0) y v h

theorem atOfSearch_fb1 (l : List Char) : ∀ (prev : Option Char) (r : Nat),
    fb1SearchAux prev l = some r →
    ∃ x y, l = x ++ y ∧ matchFb1At (prevAt prev x) y = some r := by
  induction l with
  | nil =>
    intro prev r h
    exact ⟨[], [], rfl, h⟩
  | cons c rest ih =>
    intro prev r h
    rw [show fb1SearchAux prev (c :: rest) = (match matchFb1At prev (c :: rest) with
      | some v => some v
      | none => fb1SearchAux (some c) rest) from rfl] at h
    cases hm : matchFb1At prev (c :: rest) with
    | some v =>
      rw [hm] at h
      have h2 : some v = some r := h
      exact ⟨[], c :: rest, rfl, by
        rw [show prevAt prev [] = prev from rfl]
        exact hm.trans h2⟩
    | none =>
      rw [hm] at h
      obtain ⟨x, y, heq, hat⟩ := ih (some c) r h
      exact ⟨c :: x, y, by rw [heq, List.cons_append], by rw [prevAt_cons]; exact hat⟩

/-! ### Decomposition of `ciStrip` matches and whitespace collapsing -/

theorem ciStrip_decomp {w l rest : List Char} (h : ciStrip w l = some rest) :
    ∃ pre, l = pre ++ rest ∧ pre.map lowerC = w := by
  induction w generalizing l with
  | nil =>
    simp only [ciStrip, Option.some_inj] at h
    exact ⟨[], by rw [h]; rfl, rfl⟩
  | cons p ps ih =>
    cases l with
    | nil => simp [ciStrip] at h
    | cons c cs =>
      simp only [ciStrip] at h
      split at h
      · obtain ⟨pre, heq, hmap⟩ := ih h
        refine ⟨c :: pre, by rw [List.cons_append, heq], ?_⟩
        rw [List.map_cons, hmap]
        congr 1
      · exact absurd h (by simp)

theorem ciStrip_of_map {pre : List Char} : ∀ {w rest : List Char},
    pre.map lowerC = w → ciStrip w (pre ++ rest) = some rest := by
  induction pre with
  | nil =>
    intro w rest h
    rw [← h]
    rfl
  | cons c pr ih =>
    intro w rest h
    rw [← h, List.map_cons, List.cons_append]
    show ciStrip (lowerC c :: pr.map lowerC) (c :: (pr ++ rest)) = some rest
    simp only [ciStrip, if_pos rfl]
    exact ih rfl

theorem takeWhile_append_all {p : Char → Bool} {u v : List Char}
    (hu : ∀ c ∈ u, p c = true) (hv : ∀ c, v.head? = some c → p c = false) :
    (u ++ v).takeWhile p = u ∧ (u ++ v).dropWhile p = v := by
  induction u with
  | nil =>
    cases v with
    | nil => exact ⟨rfl, rfl⟩
    | cons c r =>
      have hc := hv c rfl
      simp [List.takeWhile_cons, List.dropWhile_cons, hc]
  | cons c r ih =>
    have hc := hu c (by simp)
    have hr := ih (fun d hd => hu d (by simp [hd]))
    simp [List.takeWhile_cons, List.dropWhile_cons, hc, hr.1, hr.2]

theorem collapse_ws_alone {u : List Char} (hu : ∀ c ∈ u, pyWsChar c = true) :
    collapseAux true u = [] ∧ (u ≠ [] → collapseAux false u = [' ']) := by
  induction u with
  | nil => exact ⟨rfl, fun h => absurd rfl h⟩
  | cons c r ih =>
    have hc := hu c (by simp)
    have h1 := (ih (fun d hd => hu d (by simp [hd]))).1
    constructor
    · rw [collapseAux, if_pos hc]
      exact h1
    · intro _
      rw [collapseAux, if_pos hc]
      rw [h1]
      rfl

theorem collapse_nonws_alone {u : List Char} (hu : ∀ c ∈ u, pyWsChar c = false) :
    ∀ f, collapseAux f u = u := by
  induction u with
  | nil => intro f; rfl
  | cons c r ih =>
    intro f
    have hc := hu c (by simp)
    rw [collapseAux, if_neg (by simp [hc]), ih (fun d hd => hu d (by simp [hd])) false]

theorem collapseAux_append (u : List Char) : ∀ (f : Bool) (v : List Char),
    collapseAux f (u ++ v) = collapseAux f u ++
      collapseAux (match u.getLast? with
        | some c => pyWsChar c
        | none => f) v := by
  induction u with
  | nil => intro f v; rfl
  | cons c r ih =>
    intro f v
    rw [List.cons_append]
    cases r with
    | nil =>
      simp only [List.getLast?_singleton]
      by_cases hc : pyWsChar c = true
      · cases f <;> simp [collapseAux, hc]
      · rw [Bool.not_eq_true] at hc
        cases f <;> simp [collapseAux, hc]
    | cons d ds =>
      rw [List.getLast?_cons_cons]
      cases hgl : (d :: ds).getLast? with
      | none => simp at hgl
      | some e =>
        have ihx : ∀ g, collapseAux g ((d :: ds) ++ v) =
            collapseAux g (d :: ds) ++ collapseAux (pyWsChar e) v := by
          intro g
          have h0 := ih g v
          rw [hgl] at h0
          exact h0
        by_cases hc : pyWsChar c = true
        · cases f with
          | true =>
            rw [collapseAux, if_pos hc, collapseAux, if_pos hc, if_pos rfl, if_pos rfl, ihx]
          | false =>
            rw [collapseAux, if_pos hc, collapseAux, if_pos hc,
              if_neg (by decide), if_neg (by decide), ihx, List.cons_append]
        · rw [collapseAux, if_neg hc, collapseAux, if_neg hc, ihx, List.cons_append]

/-! ### Decomposition of a fallback `in N minutes` match -/

theorem matchFb1At_decomp {prev : Option Char} {l : List Char} {r : Nat}
    (hm : matchFb1At prev l = some r) :
    boundaryOkPrev prev = true ∧
    ∃ i2 a d w m y,
      l = i2 ++ (a ++ (d ++ (w ++ (m ++ y)))) ∧
      i2.map lowerC = ['i', 'n'] ∧
      a ≠ [] ∧ (∀ c ∈ a, pyWsChar c = true) ∧
      d ≠ [] ∧ (∀ c ∈ d, digitChar c = true) ∧ d.length = r ∧
      w ≠ [] ∧ (∀ c ∈ w, pyWsChar c = true) ∧
      ((m.map lowerC = ['m','i','n','u','t','e'] ∧
        (y = [] ∨ ∃ c y2, y = c :: y2 ∧ ¬ lowerC c = 's' ∧ wordChar c = false)) ∨
       (m.map lowerC = ['m','i','n','u','t','e','s'] ∧
        (y = [] ∨ ∃ c y2, y = c :: y2 ∧ wordChar c = false))) := by
  rw [matchFb1At] at hm
  split at hm
  case isFalse => exact absurd hm (by simp)
  case isTrue hbnd =>
  refine ⟨hbnd, ?_⟩
  cases h1 : ciStrip ['i','n'] l with
  | none => rw [h1] at hm; exact absurd hm (by simp)
  | some r1 =>
  rw [h1] at hm
  replace hm : (if List.takeWhile pyWsChar r1 = [] then none else
      if List.takeWhile digitChar (List.dropWhile pyWsChar r1) = [] then none else
      if List.takeWhile pyWsChar
          (List.dropWhile digitChar (List.dropWhile pyWsChar r1)) = [] then none else
      match ciStrip ['m','i','n','u','t','e']
          (List.dropWhile pyWsChar
            (List.dropWhile digitChar (List.dropWhile pyWsChar r1))) with
      | none => none
      | some r5 =>
        match r5 with
        | [] => some (List.takeWhile digitChar (List.dropWhile pyWsChar r1)).length
        | c :: r6 =>
          if lowerC c = 's' then
            (if boundaryAfterB r6 = true then
              some (List.takeWhile digitChar (List.dropWhile pyWsChar r1)).length
            else none)
          else if (!wordChar c) = true then
            some (List.takeWhile digitChar (List.dropWhile pyWsChar r1)).length
          else none) = some r := hm
  obtain ⟨i2, hl, hi2⟩ := ciStrip_decomp h1
  split at hm
  case isTrue => exact absurd hm (by simp)
  case isFalse hws1 =>
  split at hm
  case isTrue => exact absurd hm (by simp)
  case isFalse hds =>
  split at hm
  case isTrue => exact absurd hm (by simp)
  case isFalse hws2 =>
  cases h5 : ciStrip ['m','i','n','u','t','e']
      (List.dropWhile pyWsChar
        (List.dropWhile digitChar (List.dropWhile pyWsChar r1))) with
  | none => rw [h5] at hm; exact absurd hm (by simp)
  | some r5 =>
  rw [h5] at hm
  obtain ⟨mPre, hr4, hmPre⟩ := ciStrip_decomp h5
  have hr1 : r1 = List.takeWhile pyWsChar r1 ++ List.dropWhile pyWsChar r1 :=
    (List.takeWhile_append_dropWhile _ _).symm
  have hr2 : List.dropWhile pyWsChar r1 =
      List.takeWhile digitChar (List.dropWhile pyWsChar r1) ++
      List.dropWhile digitChar (List.dropWhile pyWsChar r1) :=
    (List.takeWhile_append_dropWhile _ _).symm
  have hr3 : List.dropWhile digitChar (List.dropWhile pyWsChar r1) =
      List.takeWhile pyWsChar (List.dropWhile digitChar (List.dropWhile pyWsChar r1)) ++
      List.dropWhile pyWsChar (List.dropWhile digitChar (List.dropWhile pyWsChar r1)) :=
    (List.takeWhile_append_dropWhile _ _).symm
  cases r5 with
  | nil =>
    have hm2 : some (List.takeWhile digitChar (List.dropWhile pyWsChar r1)).length
        = some r := hm
    refine ⟨i2, List.takeWhile pyWsChar r1,
      List.takeWhile digitChar (List.dropWhile pyWsChar r1),
      List.takeWhile pyWsChar (List.dropWhile digitChar (List.dropWhile pyWsChar r1)),
      mPre, [], ?_, hi2, hws1, fun c hc => List.mem_takeWhile_imp hc,
      hds, fun c hc => List.mem_takeWhile_imp hc, Option.some_inj.mp hm2,
      hws2, fun c hc => List.mem_takeWhile_imp hc,
      Or.inl ⟨hmPre, Or.inl rfl⟩⟩
    rw [hl]
    nth_rewrite 1 [hr1]
    nth_rewrite 1 [hr2]
    nth_rewrite 1 [hr3]
    rw [hr4]
  | cons c r6 =>
    replace hm : (if lowerC c = 's' then
        (if boundaryAfterB r6 = true then
          some (List.takeWhile digitChar (List.dropWhile pyWsChar r1)).length
        else none)
      else if (!wordChar c) = true then
        some (List.takeWhile digitChar (List.dropWhile pyWsChar r1)).length
      else none) = some r := hm
    split at hm
    next hcs =>
      split at hm
      next hbb =>
        have hm2 : some (List.takeWhile digitChar (List.dropWhile pyWsChar r1)).length
            = some r := hm
        refine ⟨i2, List.takeWhile pyWsChar r1,
          List.takeWhile digitChar (List.dropWhile pyWsChar r1),
          List.takeWhile pyWsChar (List.dropWhile digitChar (List.dropWhile pyWsChar r1)),
          mPre ++ [c], r6, ?_, hi2, hws1, fun e he => List.mem_takeWhile_imp he,
          hds, fun e he => List.mem_takeWhile_imp he, Option.some_inj.mp hm2,
          hws2, fun e he => List.mem_takeWhile_imp he,
          Or.inr ⟨?_, ?_⟩⟩
        · rw [hl]
          nth_rewrite 1 [hr1]
          nth_rewrite 1 [hr2]
          nth_rewrite 1 [hr3]
          rw [hr4]
          simp [List.append_assoc]
        · rw [List.map_append, hmPre, List.map_cons, List.map_nil, hcs]
          rfl
        · cases r6 with
          | nil => exact Or.inl rfl
          | cons c2 y2 =>
            refine Or.inr ⟨c2, y2, rfl, ?_⟩
            rw [boundaryAfterB] at hbb
            rw [← Bool.not_eq_true]
            simp only [Bool.not_eq_true'] at hbb
            rw [hbb]
            simp
      next => exact absurd hm (by simp)
    next hcs =>
      split at hm
      next hwc =>
        have hm2 : some (List.takeWhile digitChar (List.dropWhile pyWsChar r1)).length
            = some r := hm
        refine ⟨i2, List.takeWhile pyWsChar r1,
          List.takeWhile digitChar (List.dropWhile pyWsChar r1),
          List.takeWhile pyWsChar (List.dropWhile digitChar (List.dropWhile pyWsChar r1)),
          mPre, c :: r6, ?_, hi2, hws1, fun e he => List.mem_takeWhile_imp he,
          hds, fun e he => List.mem_takeWhile_imp he, Option.some_inj.mp hm2,
          hws2, fun e he => List.mem_takeWhile_imp he,
          Or.inl ⟨hmPre, Or.inr ⟨c, r6, rfl, hcs, by
            simp only [Bool.not_eq_true'] at hwc
            exact hwc⟩⟩⟩
        rw [hl]
        nth_rewrite 1 [hr1]
        nth_rewrite 1 [hr2]
        nth_rewrite 1 [hr3]
        rw [hr4]
      next => exact absurd hm (by simp)

theorem dropWhile_head_false {p : Char → Bool} : ∀ {l : List Char} {c : Char}
    {t : List Char}, l.dropWhile p = c :: t → p c = false := by
  intro l
  induction l with
  | nil => intro c t h; simp at h
  | cons a r ih =>
    intro c t h
    rw [List.dropWhile_cons] at h
    split at h
    · exact ih h
    · injection h with h1 h2
      subst h1
      next hna => exact Bool.not_eq_true _ |>.mp hna

theorem digit_not_ws {c : Char} (h : digitChar c = true) : pyWsChar c = false := by
  by_cases hw : pyWsChar c = true
  · rw [pyWsChar_iff] at hw
    rw [digitChar_iff] at h
    omega
  · exact Bool.not_eq_true _ |>.mp hw

theorem not_ws_of_lowerC_mem {c : Char} {w : List Char}
    (hw : ∀ d ∈ w, pyWsChar d = false) (h : lowerC c ∈ w) : pyWsChar c = false := by
  rw [← pyWsChar_lowerC]
  exact hw _ h

theorem word_false_lowerC_ne_s {c : Char} (h : wordChar c = false) :
    ¬ lowerC c = 's' := by
  intro hls
  have h2 := wordChar_lowerC c
  rw [hls, h] at h2
  exact absurd h2 (by decide)

theorem collapse_ws_run {u : List Char} (h0 : u ≠ [])
    (hu : ∀ c ∈ u, pyWsChar c = true) (v : List Char) :
    collapseAux false (u ++ v) = ' ' :: collapseAux true v ∧
    collapseAux true (u ++ v) = collapseAux true v := by
  have hgl : u.getLast? = some (u.getLast h0) := List.getLast?_eq_getLast u h0
  have hflag : pyWsChar (u.getLast h0) = true := hu _ (List.getLast_mem h0)
  have ha := collapseAux_append u false v
  have hb := collapseAux_append u true v
  rw [hgl] at ha hb
  constructor
  · rw [ha, (collapse_ws_alone hu).2 h0]
    show ' ' :: collapseAux (pyWsChar (u.getLast h0)) v = _
    rw [hflag]
  · rw [hb, (collapse_ws_alone hu).1]
    show collapseAux (pyWsChar (u.getLast h0)) v = _
    rw [hflag]

theorem collapse_nonws_run {u : List Char} (h0 : u ≠ [])
    (hu : ∀ c ∈ u, pyWsChar c = false) (f : Bool) (v : List Char) :
    collapseAux f (u ++ v) = u ++ collapseAux false v := by
  have hgl : u.getLast? = some (u.getLast h0) := List.getLast?_eq_getLast u h0
  have hflag : pyWsChar (u.getLast h0) = false := hu _ (List.getLast_mem h0)
  have ha := collapseAux_append u f v
  rw [hgl] at ha
  rw [ha, collapse_nonws_alone hu f]
  show u ++ collapseAux (pyWsChar (u.getLast h0)) v = _
  rw [hflag]

theorem collapse_getLast_nonws {u : List Char} {c : Char} (h : u.getLast? = some c)
    (hc : pyWsChar c = false) (f : Bool) :
    (collapseAux f u).getLast? = some c := by
  have h0 : u ≠ [] := by
    intro hnil
    rw [hnil] at h
    simp at h
  have hlast : u.getLast h0 = c := by
    have := List.getLast?_eq_getLast u h0
    rw [h] at this
    exact (Option.some_inj.mp this).symm
  have hsplit := List.dropLast_append_getLast h0
  rw [hlast] at hsplit
  have hone : ∀ g : Bool, collapseAux g [c] = [c] := by
    intro g
    rw [collapseAux, if_neg (by simp [hc])]
    rfl
  calc (collapseAux f u).getLast?
      = (collapseAux f (u.dropLast ++ [c])).getLast? := by rw [hsplit]
    _ = some c := by
        rw [collapseAux_append, hone]
        exact List.getLast?_concat _

/-! ### From a fallback match to a relative-regex match (C10) -/

theorem strip_left_nonws_head {x M : List Char}
    (hM : ∀ c, M.head? = some c → pyWsChar c = false) :
    (x ++ M).dropWhile pyWsChar = x.dropWhile pyWsChar ++ M := by
  rw [List.dropWhile_append]
  split
  · next hemp =>
    have hx0 : x.dropWhile pyWsChar = [] := List.isEmpty_iff.mp hemp
    rw [hx0, List.nil_append]
    cases M with
    | nil => rfl
    | cons c t =>
      rw [List.dropWhile_cons, if_neg (by simp [hM c rfl])]
  · rfl

theorem pyStrip_decomp {x M y : List Char} {cM cE : Char}
    (hMh : M.head? = some cM) (hMw : pyWsChar cM = false)
    (hMl : M.getLast? = some cE) (hEw : pyWsChar cE = false) :
    pyStrip (x ++ (M ++ y)) =
      (x.dropWhile pyWsChar) ++ (M ++ ((y.reverse.dropWhile pyWsChar).reverse)) := by
  rw [pyStrip]
  have h1 : (x ++ (M ++ y)).dropWhile pyWsChar = x.dropWhile pyWsChar ++ (M ++ y) := by
    apply strip_left_nonws_head
    intro c hc
    rw [List.head?_append_of_ne_nil M
      (by intro h0; rw [h0] at hMh; exact Option.noConfusion hMh), hMh] at hc
    cases hc
    exact hMw
  rw [h1]
  have h2 : (x.dropWhile pyWsChar ++ (M ++ y)).reverse
      = y.reverse ++ (M.reverse ++ (x.dropWhile pyWsChar).reverse) := by
    simp [List.reverse_append, List.append_assoc]
  rw [h2]
  have hMr : M.reverse ≠ [] := by
    intro h0
    have h3 : M = [] := by simpa using congrArg List.reverse h0
    rw [h3] at hMh
    exact Option.noConfusion hMh
  have h3 : (y.reverse ++ (M.reverse ++ (x.dropWhile pyWsChar).reverse)).dropWhile pyWsChar
      = y.reverse.dropWhile pyWsChar ++ (M.reverse ++ (x.dropWhile pyWsChar).reverse) := by
    apply strip_left_nonws_head
    intro c hc
    rw [List.head?_append_of_ne_nil M.reverse hMr, List.head?_reverse, hMl] at hc
    cases hc
    exact hEw
  rw [h3]
  simp [List.reverse_append, List.append_assoc]

theorem collapse_ne_nil {u : List Char} (h0 : u ≠ []) :
    collapseAux false u ≠ [] := by
  cases u with
  | nil => exact absurd rfl h0
  | cons c r =>
    rw [collapseAux]
    by_cases hc : pyWsChar c = true
    · rw [if_pos hc, if_neg (by decide)]
      exact List.cons_ne_nil _ _
    · rw [if_neg hc]
      exact List.cons_ne_nil _ _

theorem collapse_false_cons (c : Char) (u : List Char) :
    (pyWsChar c = true ∧ collapseAux false (c :: u) = ' ' :: collapseAux true u) ∨
    (pyWsChar c = false ∧ collapseAux false (c :: u) = c :: collapseAux false u) := by
  cases hc : pyWsChar c
  · right
    exact ⟨rfl, by rw [collapseAux, if_neg (by simp [hc])]⟩
  · left
    refine ⟨rfl, ?_⟩
    rw [collapseAux, if_pos hc, if_neg (by decide)]

theorem collapse_boundary : ∀ (u : List Char) (f : Bool) (cx : Char),
    u.getLast? = some cx → wordChar cx = false →
    collapseAux f u = [] ∨
      ∃ e, (collapseAux f u).getLast? = some e ∧ wordChar e = false := by
  intro u
  induction u with
  | nil =>
    intro f cx h _
    exact absurd h (by simp)
  | cons c r ih =>
    intro f cx h hw
    cases r with
    | nil =>
      have hc : c = cx := by simpa using h
      subst hc
      by_cases hws : pyWsChar c = true
      · cases f with
        | true =>
          left
          rw [collapseAux, if_pos hws, if_pos rfl]
          rfl
        | false =>
          right
          refine ⟨' ', ?_, by decide⟩
          rw [collapseAux, if_pos hws, if_neg (by decide)]
          rfl
      · right
        refine ⟨c, ?_, hw⟩
        rw [collapseAux, if_neg hws]
        rfl
    | cons d ds =>
      rw [List.getLast?_cons_cons] at h
      by_cases hws : pyWsChar c = true
      · cases f with
        | true =>
          rw [collapseAux, if_pos hws, if_pos rfl]
          exact ih true cx h hw
        | false =>
          rw [collapseAux, if_pos hws, if_neg (by decide)]
          rcases ih true cx h hw with hnil | ⟨e, he, hwe⟩
          · right
            refine ⟨' ', ?_, by decide⟩
            rw [hnil]
            rfl
          · right
            refine ⟨e, ?_, hwe⟩
            have hne : collapseAux true (d :: ds) ≠ [] := by
              intro h0
              rw [h0] at he
              exact Option.noConfusion he
            obtain ⟨lh, lt, hl⟩ := List.exists_cons_of_ne_nil hne
            rw [hl] at he
            rw [hl, List.getLast?_cons_cons]
            exact he
      · rw [collapseAux, if_neg hws]
        rcases ih false cx h hw with hnil | ⟨e, he, hwe⟩
        · exact absurd hnil (collapse_ne_nil (List.cons_ne_nil d ds))
        · right
          refine ⟨e, ?_, hwe⟩
          have hne : collapseAux false (d :: ds) ≠ [] :=
            collapse_ne_nil (List.cons_ne_nil d ds)
          obtain ⟨lh, lt, hl⟩ := List.exists_cons_of_ne_nil hne
          rw [hl] at he
          rw [hl, List.getLast?_cons_cons]
          exact he

theorem strip_trail_head (y : List Char) :
    (y.reverse.dropWhile pyWsChar).reverse = [] ∨
    ∃ c u, (y.reverse.dropWhile pyWsChar).reverse = c :: u ∧ ∃ t, y = c :: (u ++ t) := by
  cases h : (y.reverse.dropWhile pyWsChar).reverse with
  | nil => left; rfl
  | cons c u =>
    right
    refine ⟨c, u, rfl, ?_⟩
    have h1 : (y.reverse.dropWhile pyWsChar) <:+ y.reverse := List.dropWhile_suffix pyWsChar
    have h2 : (c :: u).reverse <:+ y.reverse := by
      rw [← h, List.reverse_reverse]
      exact h1
    obtain ⟨t, ht⟩ := List.reverse_suffix.mp h2
    exact ⟨t, by rw [← ht, List.cons_append]⟩

/-- A fallback-pattern match (on any split of the lowered text) forces the
relative-phrase regex of the resolver to match the collapsed strip of the
same text, provided the digit run has length at most 3. -/
theorem fb1_to_rel {x y0 : List Char} {r : Nat}
    (hm : matchFb1At (prevAt none x) y0 = some r) (hr : r ≤ 3) :
    (relSearch (collapseWs (pyStrip (x ++ y0)))).isSome = true := by
  obtain ⟨hbnd, i2, a, d, w, m, y, hly, hi2, ha0, haw, hd0, hdd, hdr, hw0, hww, hM⟩ :=
    matchFb1At_decomp hm
  cases i2 with
  | nil => exact absurd hi2 (by simp)
  | cons c1 t1 =>
  cases t1 with
  | nil => exact absurd hi2 (by simp)
  | cons c2 t2 =>
  cases t2 with
  | cons c3 t3 => exact absurd hi2 (by simp)
  | nil =>
  simp only [List.map_cons, List.map_nil, List.cons.injEq, and_true] at hi2
  obtain ⟨hc1, hc2⟩ := hi2
  have hc1w : pyWsChar c1 = false := by
    rw [← pyWsChar_lowerC, hc1]
    decide
  have hc2w : pyWsChar c2 = false := by
    rw [← pyWsChar_lowerC, hc2]
    decide
  have hmw : ∀ c ∈ m, pyWsChar c = false := by
    intro c hc
    rcases hM with ⟨hmm, _⟩ | ⟨hmm, _⟩
    · have h2 := List.mem_map_of_mem lowerC hc
      rw [hmm] at h2
      exact not_ws_of_lowerC_mem (by decide) h2
    · have h2 := List.mem_map_of_mem lowerC hc
      rw [hmm] at h2
      exact not_ws_of_lowerC_mem (by decide) h2
  have hm0 : m ≠ [] := by
    intro h0
    subst h0
    rcases hM with ⟨hmm, _⟩ | ⟨hmm, _⟩ <;> simp at hmm
  have hcm : m.getLast? = some (m.getLast hm0) := List.getLast?_eq_getLast m hm0
  have hcmw : pyWsChar (m.getLast hm0) = false := hmw _ (List.getLast_mem hm0)
  have hMl : (([c1, c2] : List Char) ++ (a ++ (d ++ (w ++ m)))).getLast?
      = some (m.getLast hm0) := by
    rw [List.getLast?_append, List.getLast?_append, List.getLast?_append,
      List.getLast?_append, hcm]
    rfl
  have hxy : x ++ y0 = x ++ ((([c1, c2] : List Char) ++ (a ++ (d ++ (w ++ m)))) ++ y) := by
    rw [hly]
    simp [List.append_assoc]
  have hstrip : pyStrip (x ++ y0) =
      x.dropWhile pyWsChar ++ ((([c1, c2] : List Char) ++ (a ++ (d ++ (w ++ m)))) ++
        ((y.reverse.dropWhile pyWsChar).reverse)) := by
    rw [hxy]
    exact pyStrip_decomp rfl hc1w hMl hcmw
  have h12w : ∀ c ∈ ([c1, c2] : List Char), pyWsChar c = false := by
    intro c hc
    rw [List.mem_cons] at hc
    rcases hc with h | hc
    · rw [h]; exact hc1w
    · rw [List.mem_singleton] at hc
      rw [hc]; exact hc2w
  have hCrest : ∀ f : Bool,
      collapseAux f ((([c1, c2] : List Char) ++ (a ++ (d ++ (w ++ m)))) ++
        (y.reverse.dropWhile pyWsChar).reverse)
      = [c1, c2] ++ (' ' :: (d ++ (' ' :: (m ++ collapseAux false
          (y.reverse.dropWhile pyWsChar).reverse)))) := by
    intro f
    have hre : ((([c1, c2] : List Char) ++ (a ++ (d ++ (w ++ m)))) ++
        (y.reverse.dropWhile pyWsChar).reverse)
        = [c1, c2] ++ (a ++ (d ++ (w ++ (m ++ (y.reverse.dropWhile pyWsChar).reverse)))) := by
      simp [List.append_assoc]
    rw [hre, collapse_nonws_run (List.cons_ne_nil c1 [c2]) h12w f,
      (collapse_ws_run ha0 haw
        (d ++ (w ++ (m ++ (y.reverse.dropWhile pyWsChar).reverse)))).1,
      collapse_nonws_run hd0 (fun c hc => digit_not_ws (hdd c hc)) true,
      (collapse_ws_run hw0 hww (m ++ (y.reverse.dropWhile pyWsChar).reverse)).1,
      collapse_nonws_run hm0 hmw true]
  have hbP : boundaryOkPrev (prevAt none (collapseAux false (x.dropWhile pyWsChar))) = true := by
    by_cases hxe : x.dropWhile pyWsChar = []
    · rw [hxe]
      rfl
    · have hx0 : x ≠ [] := by
        intro h0
        rw [h0] at hxe
        exact hxe rfl
      have hgx : x.getLast? = some (x.getLast hx0) := List.getLast?_eq_getLast x hx0
      have hbx : wordChar (x.getLast hx0) = false := by
        rw [prevAt, hgx] at hbnd
        simpa [boundaryOkPrev] using hbnd
      have hsfx : x.dropWhile pyWsChar <:+ x := List.dropWhile_suffix pyWsChar
      obtain ⟨t, ht⟩ := hsfx
      have hgd : (x.dropWhile pyWsChar).getLast?
          = some ((x.dropWhile pyWsChar).getLast hxe) :=
        List.getLast?_eq_getLast _ hxe
      have hgx2 : x.getLast? = some ((x.dropWhile pyWsChar).getLast hxe) := by
        conv_lhs => rw [← ht]
        rw [List.getLast?_append, hgd]
        rfl
      have heq2 : (x.dropWhile pyWsChar).getLast hxe = x.getLast hx0 := by
        rw [hgx] at hgx2
        injection hgx2 with h2
        exact h2.symm
      rcases collapse_boundary (x.dropWhile pyWsChar) false (x.getLast hx0)
          (by rw [hgd, heq2]) hbx with hnil | ⟨e, he, hwe⟩
      · rw [hnil]
        rfl
      · rw [prevAt, he]
        simp [boundaryOkPrev, hwe]
  have hunit : matchUnitEnd (m ++ collapseAux false (y.reverse.dropWhile pyWsChar).reverse)
      = some false := by
    rcases hM with ⟨hmm, hy⟩ | ⟨hmm, hy⟩
    · have hci : ciStrip ['m','i','n','u','t','e']
          (m ++ collapseAux false (y.reverse.dropWhile pyWsChar).reverse)
          = some (collapseAux false (y.reverse.dropWhile pyWsChar).reverse) :=
        ciStrip_of_map hmm
      rw [matchUnitEnd, hci]
      show (match collapseAux false (y.reverse.dropWhile pyWsChar).reverse with
        | [] => some false
        | c :: r2 =>
          if lowerC c = 's' then if boundaryAfterB r2 then some false else none
          else if !wordChar c then some false else none) = some false
      rcases strip_trail_head y with h0 | ⟨c, u, hcu, t, hyt⟩
      · rw [h0]
        rfl
      · rcases hy with hy0 | ⟨c2, y2, hy2, hs2, hw2⟩
        · rw [hy0] at hyt
          exact absurd hyt (by simp)
        · injection (hyt.symm.trans hy2) with h1 h2
          subst h1
          rw [hcu]
          rcases collapse_false_cons c u with ⟨hws, heq⟩ | ⟨hws, heq⟩
          · rw [heq]
            show (if lowerC ' ' = 's' then
                (if boundaryAfterB (collapseAux true u) then some false else none)
              else if !wordChar ' ' then some false else none) = some false
            rw [if_neg (by decide), if_pos (by decide)]
          · rw [heq]
            show (if lowerC c = 's' then
                (if boundaryAfterB (collapseAux false u) then some false else none)
              else if !wordChar c then some false else none) = some false
            rw [if_neg hs2, if_pos (by rw [hw2]; rfl)]
    · have hmpl : m.dropLast ++ [m.getLast hm0] = m := List.dropLast_append_getLast hm0
      have hmap2 : m.dropLast.map lowerC = ['m','i','n','u','t','e'] := by
        have h1 : (m.map lowerC).dropLast = ['m','i','n','u','t','e'] := by
          rw [hmm]
          rfl
        rw [← List.map_dropLast] at h1
        exact h1
      have hscl : lowerC (m.getLast hm0) = 's' := by
        have h1 : (m.map lowerC).getLast? = some 's' := by rw [hmm]; rfl
        rw [← hmpl, List.map_append, List.getLast?_append] at h1
        simpa using h1
      have hci : ciStrip ['m','i','n','u','t','e']
          (m ++ collapseAux false (y.reverse.dropWhile pyWsChar).reverse)
          = some (m.getLast hm0 ::
            collapseAux false (y.reverse.dropWhile pyWsChar).reverse) := by
        conv_lhs => rw [← hmpl, List.append_assoc]
        exact ciStrip_of_map hmap2
      rw [matchUnitEnd, hci]
      show (if lowerC (m.getLast hm0) = 's' then
          (if boundaryAfterB (collapseAux false (y.reverse.dropWhile pyWsChar).reverse)
            then some false else none)
        else if !wordChar (m.getLast hm0) then some false else none) = some false
      rw [if_pos hscl]
      rcases strip_trail_head y with h0 | ⟨c, u, hcu, t, hyt⟩
      · rw [if_pos (by rw [h0]; rfl)]
      · rcases hy with hy0 | ⟨c2, y2, hy2, hw2⟩
        · rw [hy0] at hyt
          exact absurd hyt (by simp)
        · injection (hyt.symm.trans hy2) with h1 h2
          subst h1
          rcases collapse_false_cons c u with ⟨hws, heq⟩ | ⟨hws, heq⟩
          · rw [if_pos (by rw [hcu, heq]; show (!wordChar ' ') = true; decide)]
          · rw [if_pos (by rw [hcu, heq]; show (!wordChar c) = true; rw [hw2]; rfl)]
  obtain ⟨d0, dtl, hdcons⟩ := List.exists_cons_of_ne_nil hd0
  have hd0d : digitChar d0 = true :=
    hdd d0 (by rw [hdcons]; exact List.mem_cons_self d0 dtl)
  obtain ⟨m0, mtl, hmcons⟩ := List.exists_cons_of_ne_nil hm0
  have hm0w : pyWsChar m0 = false :=
    hmw m0 (by rw [hmcons]; exact List.mem_cons_self m0 mtl)
  have hu1 : ∀ c ∈ ([' '] : List Char), pyWsChar c = true := by decide
  have hv1 : ∀ c : Char,
      (d ++ (' ' :: (m ++ collapseAux false (y.reverse.dropWhile pyWsChar).reverse))).head?
        = some c → pyWsChar c = false := by
    intro c hc
    rw [hdcons] at hc
    have h2 : some d0 = some c := hc
    injection h2 with h3
    rw [← h3]
    exact digit_not_ws hd0d
  have hv2 : ∀ c : Char,
      (' ' :: (m ++ collapseAux false (y.reverse.dropWhile pyWsChar).reverse)).head?
        = some c → digitChar c = false := by
    intro c hc
    have h2 : some ' ' = some c := hc
    injection h2 with h3
    rw [← h3]
    decide
  have hv3 : ∀ c : Char,
      (m ++ collapseAux false (y.reverse.dropWhile pyWsChar).reverse).head?
        = some c → pyWsChar c = false := by
    intro c hc
    rw [hmcons] at hc
    have h2 : some m0 = some c := hc
    injection h2 with h3
    rw [← h3]
    exact hm0w
  have ht1 : (' ' :: (d ++ (' ' :: (m ++ collapseAux false
      (y.reverse.dropWhile pyWsChar).reverse)))).takeWhile pyWsChar = [' '] :=
    (takeWhile_append_all hu1 hv1).1
  have ht2 : (' ' :: (d ++ (' ' :: (m ++ collapseAux false
      (y.reverse.dropWhile pyWsChar).reverse)))).dropWhile pyWsChar
      = d ++ (' ' :: (m ++ collapseAux false (y.reverse.dropWhile pyWsChar).reverse)) :=
    (takeWhile_append_all hu1 hv1).2
  have ht3 : (d ++ (' ' :: (m ++ collapseAux false
      (y.reverse.dropWhile pyWsChar).reverse))).takeWhile digitChar = d :=
    (takeWhile_append_all hdd hv2).1
  have ht4 : (d ++ (' ' :: (m ++ collapseAux false
      (y.reverse.dropWhile pyWsChar).reverse))).dropWhile digitChar
      = ' ' :: (m ++ collapseAux false (y.reverse.dropWhile pyWsChar).reverse) :=
    (takeWhile_append_all hdd hv2).2
  have ht5 : (' ' :: (m ++ collapseAux false
      (y.reverse.dropWhile pyWsChar).reverse)).dropWhile pyWsChar
      = m ++ collapseAux false (y.reverse.dropWhile pyWsChar).reverse :=
    (takeWhile_append_all hu1 hv3).2
  have hlen3 : ¬ (3 < d.length) := by
    rw [hdr]
    omega
  have hmatch : matchRelAt (prevAt none (collapseAux false (x.dropWhile pyWsChar)))
      ([c1, c2] ++ (' ' :: (d ++ (' ' :: (m ++ collapseAux false
        (y.reverse.dropWhile pyWsChar).reverse)))))
      = some (digitsToNat d, false) := by
    have hciIn : ciStrip ['i','n'] (([c1, c2] : List Char) ++
        (' ' :: (d ++ (' ' :: (m ++ collapseAux false
          (y.reverse.dropWhile pyWsChar).reverse)))))
        = some (' ' :: (d ++ (' ' :: (m ++ collapseAux false
          (y.reverse.dropWhile pyWsChar).reverse)))) :=
      ciStrip_of_map (by simp [hc1, hc2])
    rw [matchRelAt, if_pos hbP, hciIn]
    show (if List.takeWhile pyWsChar (' ' :: (d ++ (' ' :: (m ++ collapseAux false
          (y.reverse.dropWhile pyWsChar).reverse)))) = [] then none
      else if List.takeWhile digitChar (List.dropWhile pyWsChar
            (' ' :: (d ++ (' ' :: (m ++ collapseAux false
              (y.reverse.dropWhile pyWsChar).reverse))))) = [] ||
          decide (3 < (List.takeWhile digitChar (List.dropWhile pyWsChar
            (' ' :: (d ++ (' ' :: (m ++ collapseAux false
              (y.reverse.dropWhile pyWsChar).reverse)))))).length) then none
      else match matchUnitEnd (List.dropWhile pyWsChar (List.dropWhile digitChar
          (List.dropWhile pyWsChar (' ' :: (d ++ (' ' :: (m ++ collapseAux false
            (y.reverse.dropWhile pyWsChar).reverse))))))) with
        | some isHour =>
          some (digitsToNat (List.takeWhile digitChar (List.dropWhile pyWsChar
            (' ' :: (d ++ (' ' :: (m ++ collapseAux false
              (y.reverse.dropWhile pyWsChar).reverse)))))), isHour)
        | none => none) = some (digitsToNat d, false)
    rw [ht1, if_neg (by decide), ht2, ht3,
      if_neg (by simp [hd0, hlen3]), ht4, ht5, hunit]
  rw [hstrip, collapseWs, collapseAux_append, hCrest, relSearch]
  exact searchOfAt_rel (collapseAux false (x.dropWhile pyWsChar)) none _ _ hmatch

/-- C10: with no usable structured attribute, a fallback match `in <digits>
minute(s)` on the lowered text whose digit run has length at most 3 forces
`parse_start_dt` to resolve (its relative regex `\d{1,3}` then matches), so the
unresolved-text fallback of the window filter can only fire for counts written
in 4 or more digits; and for the text "in 1000 minutes" the resolver yields
nothing, the filter nevertheless includes the event, the fallback digit run has
length 4, and the stated 1000 minutes lie beyond the 60-minute window. -/
theorem claim_C10 (L : PyLibs) (off : Int) (base : PyDateTime) (a wt : String) :
    (∀ r : Nat, attrUnusable L a → fb1Search (wt.toList.map lowerC) = some r → r ≤ 3 →
      (parse_start_dt L off base a wt).isSome = true) ∧
    (∀ r : Nat, attrUnusable L a → parse_start_dt L off base a wt = none →
      fb1Search (wt.toList.map lowerC) = some r → 4 ≤ r) ∧
    (parse_start_dt failLibs 0 base0 "" "in 1000 minutes" = none ∧
      is_within_next_hour base0 none "in 1000 minutes" = true ∧
      fb1Search ("in 1000 minutes".toList.map lowerC) = some 4 ∧
      WINDOW_MINUTES < 1000) := by
  have hp1 : ∀ r : Nat, attrUnusable L a → fb1Search (wt.toList.map lowerC) = some r →
      r ≤ 3 → (parse_start_dt L off base a wt).isSome = true := by
    intro r hattr hfb hr3
    obtain ⟨x, y, hxy, hat⟩ := atOfSearch_fb1 (wt.toList.map lowerC) none r hfb
    have h1 : (relSearch (collapseWs (pyStrip (x ++ y)))).isSome = true :=
      fb1_to_rel hat hr3
    rw [← hxy, collapseWs_pyStrip_map, relSearch_lower] at h1
    cases hrel : relSearch (collapseWs (pyStrip wt.toList)) with
    | none =>
      rw [hrel] at h1
      exact absurd h1 (by decide)
    | some v =>
      obtain ⟨n, isHour⟩ := v
      rw [parse_start_dt_relBranch L off base a wt n isHour hattr hrel]
      rfl
  refine ⟨hp1, ?_, rfl, rfl, rfl, by decide⟩
  intro r hattr hnone hfb
  by_contra hlt
  have h2 := hp1 r hattr hfb (by omega)
  rw [hnone] at h2
  exact absurd h2 (by decide)

/-- Witness for C10 at a concrete input: the attribute is empty (hence
unusable), the text "in 5 minutes" gives a fallback match with a one-digit
run, and the resolver indeed produces a result. -/
theorem claim_C10_witness :
    attrUnusable failLibs "" ∧ fb1Search ("in 5 minutes".toList.map lowerC) = some 1 ∧
      (parse_start_dt failLibs 0 base0 "" "in 5 minutes").isSome = true :=
  ⟨Or.inl rfl, rfl,
    (claim_C10 failLibs 0 base0 "" "in 5 minutes").1 1 (Or.inl rfl) rfl (by decide)⟩
